import Mathlib

/-!
Verification of the Enigma cipher core and the obfuscation text passes of the
NeoEnigma code obfuscator (src/extension.ts).  The machine model (Keyboard,
Plugboard, Rotor, Reflector, Enigma.encipher, enigmaObfuscate) is embedded as
executable Lean functions over `List Char`, keeping JavaScript semantics for
array indexing (`undefined` becomes `none`), `indexOf` (`-1` when absent) and
`charAt` (empty string when out of range).
-/

set_option maxHeartbeats 1000000

namespace NeoEnigma

/-- The fixed 26-letter alphabet used throughout extension.ts. -/
def alphabet : List Char := "ABCDEFGHIJKLMNOPQRSTUVWXYZ".toList

/-- JS array read `l[i]`: negative or out-of-range indices yield `undefined`,
modelled as `none`. -/
def jsGet (l : List Char) (i : Int) : Option Char :=
  if 0 ≤ i then l.get? i.toNat else none

/-- JS `Array.prototype.indexOf` over a character array, with the argument
possibly `undefined` (an array of characters never contains `undefined`,
so that case returns -1). -/
def jsIndexOf (l : List Char) (c : Option Char) : Int :=
  match c with
  | none => -1
  | some a => if a ∈ l then (l.indexOf a : Int) else -1

/-- Helper for JS `String.prototype.indexOf`: first position at or after `i`
where `pat` occurs in `s`, else -1. -/
def jsStrIndexOfAux (pat : List Char) : List Char → Nat → Int
  | [], i => if pat.isPrefixOf ([] : List Char) then (i : Int) else -1
  | s@(_ :: rest), i => if pat.isPrefixOf s then (i : Int) else jsStrIndexOfAux pat rest (i + 1)

/-- JS `String.prototype.indexOf` (the searched strings here have length ≤ 1;
`indexOf ""` is 0, as in JS). -/
def jsStrIndexOf (l pat : List Char) : Int := jsStrIndexOfAux pat l 0

/-- JS `String.prototype.charAt`: a one-character string, or "" out of range. -/
def jsCharAt (l : List Char) (i : Int) : List Char :=
  match jsGet l i with
  | some c => [c]
  | none => []

/-- Shared shape of the forward/backward/reflect table lookups:
`left.indexOf(right[signal])` for the two parallel orderings. -/
def tableMap (l r : List Char) (signal : Int) : Int :=
  jsIndexOf l (jsGet r signal)

/-- JS whitespace as used by `trim` and `\s` (the characters that occur in
this code base; the full JS class also has exotic Unicode spaces, which never
appear in the texts handled here). -/
def jsSpace (c : Char) : Bool :=
  c = ' ' || c = '\t' || c = '\n' || c = '\r' || c = '\x0b' || c = '\x0c'

/-- JS `String.prototype.trim`. -/
def jsTrim (l : List Char) : List Char :=
  ((l.dropWhile jsSpace).reverse.dropWhile jsSpace).reverse

/-- JS `String.prototype.split` with a one-character separator; `"".split(s)`
is `[""]`, as in JS. -/
def jsSplitOnCharAux (sep : Char) : List Char → List Char → List (List Char)
  | [], acc => [acc.reverse]
  | c :: cs, acc =>
    if c = sep then acc.reverse :: jsSplitOnCharAux sep cs []
    else jsSplitOnCharAux sep cs (c :: acc)

def jsSplitOnChar (sep : Char) (l : List Char) : List (List Char) :=
  jsSplitOnCharAux sep l []

/-- Plugboard: two parallel orderings (class Plugboard, extension.ts lines 31-58). -/
structure Plugboard where
  left : List Char
  right : List Char

/-- One iteration of the plugboard constructor loop body: a pair of length ≥ 2
is uppercased and, when both letters are found in the current `left` table,
swapped in place (JS evaluates the destructuring right-hand side first, so both
reads see the original table). The `getD` defaults are never used: the indices
come from a successful `indexOf`. -/
def pbApplyPair (l : List Char) (pair : List Char) : List Char :=
  match pair with
  | a :: b :: _ =>
    let A := a.toUpper
    let B := b.toUpper
    let idxA := jsIndexOf l (some A)
    let idxB := jsIndexOf l (some B)
    if idxA ≠ -1 ∧ idxB ≠ -1 then
      (l.set idxA.toNat (l.getD idxB.toNat A)).set idxB.toNat (l.getD idxA.toNat A)
    else l
  | _ => l

/-- The Plugboard constructor: start from two identity alphabets and fold the
swap step over `pairsStr.trim().split(" ")`. -/
def mkPlugboard (pairsStr : String) : Plugboard :=
  { left := (jsSplitOnChar ' ' (jsTrim pairsStr.toList)).foldl pbApplyPair alphabet
    right := alphabet }

def pbForward (pb : Plugboard) (signal : Int) : Int := tableMap pb.left pb.right signal

def pbBackward (pb : Plugboard) (signal : Int) : Int := tableMap pb.right pb.left signal

/-- Rotor: wiring tables plus notch (class Rotor, extension.ts lines 60-97).
The notch is a JS string (it can become "" via `charAt(NaN)`), modelled as a
list of ≤ 1 characters. -/
structure Rotor where
  left : List Char
  right : List Char
  notch : List Char

def mkRotor (wiring : String) (notch : String) : Rotor :=
  { left := alphabet, right := wiring.toList, notch := notch.toList }

def rotorForward (r : Rotor) (signal : Int) : Int := tableMap r.left r.right signal

def rotorBackward (r : Rotor) (signal : Int) : Int := tableMap r.right r.left signal

/-- One forward rotation step: `l.push(l.shift())` (the 26-element tables are
never empty, where the JS code would push `undefined`). -/
def rotFwdList (l : List Char) : List Char := l.drop 1 ++ l.take 1

/-- One backward rotation step: `l.unshift(l.pop())`. -/
def rotBwdList (l : List Char) : List Char :=
  match l.getLast? with
  | some a => a :: l.dropLast
  | none => l

def rotStep (fwd : Bool) (l : List Char) : List Char :=
  if fwd then rotFwdList l else rotBwdList l

/-- `rotate(n, forward)`: the loop `for (i = 0; i < n; i++)` runs
`max n 0` times (`Int.toNat` of a negative or the NaN-producing call sites is
handled by the callers). -/
def rotorRotate (r : Rotor) (n : Int) (fwd : Bool) : Rotor :=
  { r with
    left := (rotStep fwd)^[n.toNat] r.left
    right := (rotStep fwd)^[n.toNat] r.right }

/-- `rotateToLetter(letter)`: `letter` is a JS string (possibly "" from an out
of range `charAt`, whose `indexOf` is 0). -/
def rotorRotateToLetter (r : Rotor) (letter : List Char) : Rotor :=
  rotorRotate r (jsStrIndexOf alphabet letter) true

/-- `setRing(n)`: backward-rotate by n-1 and recompute the notch letter.  For
every reachable call, `nNotch - n + 1 + 26 ≥ 0`, so Lean's `Int.emod` agrees
with the JS `%` there. -/
def rotorSetRing (r : Rotor) (n : Int) : Rotor :=
  let r1 := rotorRotate r (n - 1) false
  let nNotch := jsStrIndexOf alphabet r.notch
  { r1 with notch := jsCharAt alphabet ((nNotch - n + 1 + 26) % 26) }

/-- Reflector (class Reflector, extension.ts lines 99-110). -/
structure Reflector where
  left : List Char
  right : List Char

def mkReflector (wiring : String) : Reflector :=
  { left := alphabet, right := wiring.toList }

def reflect (re : Reflector) (signal : Int) : Int := tableMap re.left re.right signal

/-- Keyboard forward: `"ABC...".indexOf(letter)` with `letter` a JS string. -/
def kbForward (letter : List Char) : Int := jsStrIndexOf alphabet letter

/-- Keyboard backward: `"ABC...".charAt(signal)`. -/
def kbBackward (signal : Int) : List Char := jsCharAt alphabet signal

/-- The Enigma machine state (class Enigma, extension.ts lines 112-153); the
keyboard is stateless and needs no field. -/
structure Machine where
  re : Reflector
  r1 : Rotor
  r2 : Rotor
  r3 : Rotor
  pb : Plugboard

structure EncipherResult where
  machine : Machine
  path : List Int
  letter : List Char

/-- `Enigma.encipher` (extension.ts lines 137-152): rotate the rightmost rotor
first, then thread the signal keyboard → plugboard → r3 → r2 → r1 → reflector
→ r1 → r2 → r3 → plugboard → keyboard, recording the 10 intermediate
positions. -/
def encipher (m : Machine) (letter : List Char) : EncipherResult :=
  let r3 := rotorRotate m.r3 1 true
  let s0 := kbForward letter
  let s1 := pbForward m.pb s0
  let s2 := rotorForward r3 s1
  let s3 := rotorForward m.r2 s2
  let s4 := rotorForward m.r1 s3
  let s5 := reflect m.re s4
  let s6 := rotorBackward m.r1 s5
  let s7 := rotorBackward m.r2 s6
  let s8 := rotorBackward r3 s7
  let s9 := pbBackward m.pb s8
  { machine := { m with r3 := r3 }
    path := [s0, s1, s2, s3, s4, s5, s6, s7, s8, s9]
    letter := kbBackward s9 }

/-- The regex test `/[A-Za-z]/.test(char)` from `enigmaObfuscate`. -/
def isAlphaChar (c : Char) : Bool :=
  ('A' ≤ c && c ≤ 'Z') || ('a' ≤ c && c ≤ 'z')

/-- One loop iteration of `enigmaObfuscate` (extension.ts lines 365-376):
alphabetic characters are uppercased, enciphered, and get the original case
re-applied; everything else passes through. -/
def codecStep (m : Machine) (c : Char) : Machine × List Char :=
  if isAlphaChar c then
    let r := encipher m [c.toUpper]
    let newChar := if c.toLower = c then r.letter.map Char.toLower else r.letter
    (r.machine, newChar)
  else (m, [c])

/-- The whole `for (const char of text)` loop. -/
def codecRun (m : Machine) : List Char → Machine × List Char
  | [] => (m, [])
  | c :: cs =>
    let p := codecStep m c
    let q := codecRun p.1 cs
    (q.1, p.2 ++ q.2)

/-- The rotor wiring table of `enigmaObfuscate` (object lookup: `undefined`
for unknown names). -/
def rotorWiring (name : String) : Option String :=
  if name = "I" then some "EKMFLGDQVZNTOWYHXUSPAIBRCJ"
  else if name = "II" then some "AJDKSIRUXBLHWTMCQGZNPYFVOE"
  else if name = "III" then some "BDFHJLCPRTXVZNYEIWGAKMUSQO"
  else if name = "IV" then some "ESOVPZJAYQUIRHXLNFTGKDCMWB"
  else if name = "V" then some "VZBRGITYUPSDNHLXAWMJQOFECK"
  else none

/-- The reflector wiring table of `enigmaObfuscate`. -/
def reflectorWiring (name : String) : Option String :=
  if name = "A" then some "EJMZALYXVBWFCRQUONTSPIKHGD"
  else if name = "B" then some "YRUHQSLDPXNGOKMIEBFZCWVJAT"
  else if name = "C" then some "FVPJIAOYEDRZXWGCTKUQSBNMHL"
  else none

/-- The configuration record fed to `enigmaObfuscate`. -/
structure Config where
  rotors : String
  rotorStart : String
  rings : String
  plugboard : String
  reflector : String

/-- `setRings` element: a missing ring entry is `undefined`; `rotate(NaN-1)`
runs zero iterations and the notch becomes `charAt(NaN) = ""`. -/
def setRingOpt (r : Rotor) : Option Int → Rotor
  | some n => rotorSetRing r n
  | none => { r with notch := [] }

/-- `key.charAt(i).toUpperCase()` as a JS string of length ≤ 1. -/
def keyLetter (keyChars : List Char) (i : Nat) : List Char :=
  match keyChars.get? i with
  | some c => [c.toUpper]
  | none => []

/-- Machine construction inside `enigmaObfuscate` (extension.ts lines
338-362): resolve wirings, build the parts, `setRings`, then `setKey`.  An
unresolvable rotor or reflector name makes the JS code throw while splitting
`undefined`; that is modelled as `none`. -/
def buildMachine (cfg : Config) : Option Machine :=
  let names := (jsSplitOnChar '-' cfg.rotors.toList).map (fun l => String.mk l)
  match (names.get? 0).bind rotorWiring, (names.get? 1).bind rotorWiring,
      (names.get? 2).bind rotorWiring, reflectorWiring cfg.reflector with
  | some w1, some w2, some w3, some wr =>
    let r1 := mkRotor w1 "Q"
    let r2 := mkRotor w2 "E"
    let r3 := mkRotor w3 "V"
    let re := mkReflector wr
    let pb := mkPlugboard cfg.plugboard
    let ringNums := cfg.rings.toList.map (fun c => jsIndexOf alphabet (some c) + 1)
    let r1 := setRingOpt r1 (ringNums.get? 0)
    let r2 := setRingOpt r2 (ringNums.get? 1)
    let r3 := setRingOpt r3 (ringNums.get? 2)
    let keyChars := cfg.rotorStart.toList
    let r1 := rotorRotateToLetter r1 (keyLetter keyChars 0)
    let r2 := rotorRotateToLetter r2 (keyLetter keyChars 1)
    let r3 := rotorRotateToLetter r3 (keyLetter keyChars 2)
    some { re := re, r1 := r1, r2 := r2, r3 := r3, pb := pb }
  | _, _, _, _ => none

/-- The whole text transform `enigmaObfuscate(text, config, _)` (the
`obfuscate` flag is unused by the function). -/
def enigmaObfuscate (text : String) (cfg : Config) : Option String :=
  (buildMachine cfg).map (fun m => { data := (codecRun m text.toList).2 })

/-- The reference configuration from the webview defaults. -/
def cfgDefault : Config :=
  { rotors := "I-II-III", rotorStart := "MCK", rings := "AAA",
    plugboard := "", reflector := "B" }

/-! ### Table invariants: each side is a rearrangement of the alphabet -/

/-- A table side is a permutation (as a list) of the 26 uppercase letters. -/
abbrev Perm26 (l : List Char) : Prop := l.Perm alphabet

theorem alphabet_nodup : alphabet.Nodup := by decide

theorem alphabet_length : alphabet.length = 26 := by decide

theorem perm26_refl : Perm26 alphabet := List.Perm.refl _

theorem perm26_nodup {l : List Char} (h : Perm26 l) : l.Nodup :=
  h.nodup_iff.mpr alphabet_nodup

theorem perm26_length {l : List Char} (h : Perm26 l) : l.length = 26 :=
  h.length_eq.trans alphabet_length

theorem perm26_mem {l : List Char} (h : Perm26 l) {c : Char} : c ∈ l ↔ c ∈ alphabet :=
  h.mem_iff

theorem jsGet_of_lt {l : List Char} {s : Int} (h0 : 0 ≤ s) (h : s.toNat < l.length) :
    jsGet l s = some (l.get ⟨s.toNat, h⟩) := by
  simp [jsGet, h0, List.get?_eq_get h]

theorem jsIndexOf_of_mem {l : List Char} {c : Char} (h : c ∈ l) :
    jsIndexOf l (some c) = (l.indexOf c : Int) := by
  simp [jsIndexOf, h]

/-- A table lookup sends a valid position to a valid position. -/
theorem tableMap_range {L R : List Char} (hL : Perm26 L) (hR : Perm26 R) {s : Int}
    (h0 : 0 ≤ s) (h26 : s < 26) : 0 ≤ tableMap L R s ∧ tableMap L R s < 26 := by
  have hsn : s.toNat < R.length := by rw [perm26_length hR]; omega
  have hc : jsGet R s = some (R.get ⟨s.toNat, hsn⟩) := jsGet_of_lt h0 hsn
  have hcR : R.get ⟨s.toNat, hsn⟩ ∈ R := R.get_mem _ _
  have hcL : R.get ⟨s.toNat, hsn⟩ ∈ L := (perm26_mem hL).mpr ((perm26_mem hR).mp hcR)
  have hlt : L.indexOf (R.get ⟨s.toNat, hsn⟩) < 26 := by
    rw [← perm26_length hL]
    exact List.indexOf_lt_length.mpr hcL
  unfold tableMap
  rw [hc, jsIndexOf_of_mem hcL]
  omega

/-- The backward lookup inverts the forward lookup on valid positions. -/
theorem tableMap_inv {L R : List Char} (hL : Perm26 L) (hR : Perm26 R) {s : Int}
    (h0 : 0 ≤ s) (h26 : s < 26) : tableMap R L (tableMap L R s) = s := by
  have hsn : s.toNat < R.length := by rw [perm26_length hR]; omega
  have hc : jsGet R s = some (R.get ⟨s.toNat, hsn⟩) := jsGet_of_lt h0 hsn
  set c := R.get ⟨s.toNat, hsn⟩ with hcdef
  have hcR : c ∈ R := R.get_mem _ _
  have hcL : c ∈ L := (perm26_mem hL).mpr ((perm26_mem hR).mp hcR)
  have hkL : L.indexOf c < L.length := List.indexOf_lt_length.mpr hcL
  have h1 : tableMap L R s = (L.indexOf c : Int) := by
    unfold tableMap; rw [hc, jsIndexOf_of_mem hcL]
  rw [h1]
  have h2 : jsGet L (L.indexOf c : Int) = some c := by
    rw [jsGet_of_lt (Int.ofNat_nonneg _) (by simpa using hkL)]
    congr 1
    have h4 := @List.indexOf_get Char _ c L (by simpa using hkL)
    simp only [Int.toNat_natCast]
    exact h4
  unfold tableMap
  rw [h2, jsIndexOf_of_mem hcR]
  have h3 : R.indexOf c = s.toNat := by
    rw [hcdef]
    have := List.get_indexOf (perm26_nodup hR) ⟨s.toNat, hsn⟩
    simpa using this
  rw [h3]
  omega

/-! ### Rotation preserves the table permutation -/

theorem rotFwdList_perm (l : List Char) : (rotFwdList l).Perm l := by
  unfold rotFwdList
  have h := @List.perm_append_comm _ (l.drop 1) (l.take 1)
  rwa [List.take_append_drop] at h

theorem rotBwdList_perm (l : List Char) : (rotBwdList l).Perm l := by
  unfold rotBwdList
  cases hl : l.getLast? with
  | none => exact List.Perm.refl _
  | some a =>
    have hne : l ≠ [] := by
      intro h; subst h; simp at hl
    have hlast : l.getLast hne = a := by
      have := List.getLast?_eq_getLast l hne
      rw [hl] at this
      exact (Option.some_inj.mp this.symm)
    have hdl : l.dropLast ++ [a] = l := by
      rw [← hlast]
      exact List.dropLast_append_getLast hne
    have h1 : List.Perm ([a] ++ l.dropLast) (l.dropLast ++ [a]) := List.perm_append_comm
    rw [hdl] at h1
    simpa using h1

theorem rotStep_perm (fwd : Bool) (l : List Char) : (rotStep fwd l).Perm l := by
  unfold rotStep
  cases fwd <;> simp [rotFwdList_perm, rotBwdList_perm]

theorem rotStep_iterate_perm (fwd : Bool) (n : Nat) (l : List Char) :
    ((rotStep fwd)^[n] l).Perm l := by
  induction n generalizing l with
  | zero => simp
  | succ k ih =>
    rw [Function.iterate_succ_apply]
    exact (ih (rotStep fwd l)).trans (rotStep_perm fwd l)

/-! ### The in-place pair swap preserves the table permutation -/

theorem cons_set_perm (t : List Char) (j : Nat) (a : Char) (h : j < t.length) :
    (t.get ⟨j, h⟩ :: t.set j a).Perm (a :: t) := by
  induction t generalizing j with
  | nil => simp at h
  | cons x t ih =>
    cases j with
    | zero => simpa using List.Perm.swap a x t
    | succ k =>
      have hk : k < t.length := by simpa using h
      have step : List.Perm (t.get ⟨k, hk⟩ :: x :: t.set k a) (x :: t.get ⟨k, hk⟩ :: t.set k a) :=
        List.Perm.swap x (t.get ⟨k, hk⟩) _
      have mid : List.Perm (x :: t.get ⟨k, hk⟩ :: t.set k a) (x :: a :: t) := (ih k hk).cons x
      have fin : List.Perm (x :: a :: t) (a :: x :: t) := List.Perm.swap a x t
      simpa using (step.trans mid).trans fin

theorem swap_set_perm (l : List Char) (i j : Nat) (d e : Char)
    (hi : i < l.length) (hj : j < l.length) :
    ((l.set i (l.getD j d)).set j (l.getD i e)).Perm l := by
  induction l generalizing i j with
  | nil => simp at hi
  | cons x t ih =>
    cases i with
    | zero =>
      cases j with
      | zero => simp [List.getD_cons_zero]
      | succ k =>
        have hk : k < t.length := by simpa using hj
        have h1 : ((x :: t).set 0 ((x :: t).getD (k + 1) d)).set (k + 1) ((x :: t).getD 0 e)
            = t.getD k d :: t.set k x := by
          simp [List.getD_cons_zero, List.getD_cons_succ]
        rw [h1]
        have h2 : t.getD k d = t.get ⟨k, hk⟩ := by rw [List.getD_eq_getElem t d hk]; exact (List.get_eq_getElem t ⟨k, hk⟩).symm
        rw [h2]
        exact cons_set_perm t k x hk
    | succ k =>
      cases j with
      | zero =>
        have hk : k < t.length := by simpa using hi
        have h1 : ((x :: t).set (k + 1) ((x :: t).getD 0 d)).set 0 ((x :: t).getD (k + 1) e)
            = t.getD k e :: t.set k x := by
          simp [List.getD_cons_zero, List.getD_cons_succ]
        rw [h1]
        have h2 : t.getD k e = t.get ⟨k, hk⟩ := by rw [List.getD_eq_getElem t e hk]; exact (List.get_eq_getElem t ⟨k, hk⟩).symm
        rw [h2]
        exact cons_set_perm t k x hk
      | succ k2 =>
        have hk : k < t.length := by simpa using hi
        have hk2 : k2 < t.length := by simpa using hj
        have h1 : ((x :: t).set (k + 1) ((x :: t).getD (k2 + 1) d)).set (k2 + 1)
            ((x :: t).getD (k + 1) e) = x :: ((t.set k (t.getD k2 d)).set k2 (t.getD k e)) := by
          simp [List.getD_cons_succ]
        rw [h1]
        exact (ih k k2 hk hk2).cons x

/-! ### Machine invariant and its preservation -/

def RotorOK (r : Rotor) : Prop := Perm26 r.left ∧ Perm26 r.right

def MachineOK (m : Machine) : Prop :=
  Perm26 m.re.left ∧ Perm26 m.re.right ∧
  RotorOK m.r1 ∧ RotorOK m.r2 ∧ RotorOK m.r3 ∧
  Perm26 m.pb.left ∧ Perm26 m.pb.right

theorem rotorRotate_ok {r : Rotor} (h : RotorOK r) (n : Int) (fwd : Bool) :
    RotorOK (rotorRotate r n fwd) :=
  ⟨(rotStep_iterate_perm fwd n.toNat r.left).trans h.1,
   (rotStep_iterate_perm fwd n.toNat r.right).trans h.2⟩

theorem rotorRotateToLetter_ok {r : Rotor} (h : RotorOK r) (s : List Char) :
    RotorOK (rotorRotateToLetter r s) :=
  rotorRotate_ok h _ _

theorem rotorSetRing_ok {r : Rotor} (h : RotorOK r) (n : Int) :
    RotorOK (rotorSetRing r n) :=
  ⟨(rotorRotate_ok h (n - 1) false).1, (rotorRotate_ok h (n - 1) false).2⟩

theorem setRingOpt_ok {r : Rotor} (h : RotorOK r) (o : Option Int) :
    RotorOK (setRingOpt r o) := by
  cases o with
  | none => exact h
  | some n => exact rotorSetRing_ok h n

theorem jsIndexOf_ne_of_mem {l : List Char} {c : Char} (h : jsIndexOf l (some c) ≠ -1) :
    c ∈ l := by
  by_contra hc
  exact h (by simp [jsIndexOf, hc])

theorem pbApplyPair_perm {l : List Char} (h : Perm26 l) (p : List Char) :
    Perm26 (pbApplyPair l p) := by
  rcases p with _ | ⟨a, _ | ⟨b, rest⟩⟩
  · exact h
  · exact h
  · show Perm26 (if jsIndexOf l (some a.toUpper) ≠ -1 ∧ jsIndexOf l (some b.toUpper) ≠ -1 then
        (l.set (jsIndexOf l (some a.toUpper)).toNat
          (l.getD (jsIndexOf l (some b.toUpper)).toNat a.toUpper)).set
          (jsIndexOf l (some b.toUpper)).toNat
          (l.getD (jsIndexOf l (some a.toUpper)).toNat a.toUpper)
      else l)
    split
    case isTrue hmem =>
      have hA : a.toUpper ∈ l := jsIndexOf_ne_of_mem hmem.1
      have hB : b.toUpper ∈ l := jsIndexOf_ne_of_mem hmem.2
      have hAlt : l.indexOf a.toUpper < l.length := List.indexOf_lt_length.mpr hA
      have hBlt : l.indexOf b.toUpper < l.length := List.indexOf_lt_length.mpr hB
      have eA : (jsIndexOf l (some a.toUpper)).toNat = l.indexOf a.toUpper := by
        simp [jsIndexOf, hA]
      have eB : (jsIndexOf l (some b.toUpper)).toNat = l.indexOf b.toUpper := by
        simp [jsIndexOf, hB]
      rw [eA, eB]
      exact (swap_set_perm l _ _ _ _ hAlt hBlt).trans h
    case isFalse => exact h

theorem foldl_pbApplyPair_perm (ps : List (List Char)) {init : List Char}
    (h : Perm26 init) : Perm26 (ps.foldl pbApplyPair init) := by
  induction ps generalizing init with
  | nil => exact h
  | cons p ps ih => exact ih (pbApplyPair_perm h p)

theorem mkPlugboard_left_perm (s : String) : Perm26 (mkPlugboard s).left :=
  foldl_pbApplyPair_perm _ perm26_refl

theorem mkPlugboard_right_perm (s : String) : Perm26 (mkPlugboard s).right :=
  perm26_refl

/-- The state change of one `encipher` call: only the rightmost rotor rotates. -/
def stepped (m : Machine) : Machine := { m with r3 := rotorRotate m.r3 1 true }

theorem encipher_machine (m : Machine) (l : List Char) :
    (encipher m l).machine = stepped m := rfl

theorem machineOK_stepped {m : Machine} (h : MachineOK m) : MachineOK (stepped m) :=
  ⟨h.1, h.2.1, h.2.2.1, h.2.2.2.1, rotorRotate_ok h.2.2.2.2.1 1 true,
   h.2.2.2.2.2.1, h.2.2.2.2.2.2⟩

/-! ### The signal path through the machine -/

/-- Forward half of the path after the keyboard: plugboard, r3, r2, r1. -/
def fwd4 (m : Machine) (s : Int) : Int :=
  rotorForward m.r1 (rotorForward m.r2 (rotorForward m.r3 (pbForward m.pb s)))

/-- Backward half of the path before the keyboard: r1, r2, r3, plugboard. -/
def bwd4 (m : Machine) (s : Int) : Int :=
  pbBackward m.pb (rotorBackward m.r3 (rotorBackward m.r2 (rotorBackward m.r1 s)))

/-- The complete position map of one `encipher` call on the already-stepped
machine. -/
def fullMap (m : Machine) (s : Int) : Int :=
  bwd4 m (reflect m.re (fwd4 m s))

theorem encipher_letter (m : Machine) (l : List Char) :
    (encipher m l).letter = kbBackward (fullMap (stepped m) (kbForward l)) := rfl

theorem pbForward_range {m : Machine} (h : MachineOK m) {s : Int} (h0 : 0 ≤ s)
    (h26 : s < 26) : 0 ≤ pbForward m.pb s ∧ pbForward m.pb s < 26 :=
  tableMap_range h.2.2.2.2.2.1 h.2.2.2.2.2.2 h0 h26

theorem fwd4_range {m : Machine} (h : MachineOK m) {s : Int} (h0 : 0 ≤ s)
    (h26 : s < 26) : 0 ≤ fwd4 m s ∧ fwd4 m s < 26 := by
  have h1 := tableMap_range h.2.2.2.2.2.1 h.2.2.2.2.2.2 h0 h26
  have h2 := tableMap_range h.2.2.2.2.1.1 h.2.2.2.2.1.2 h1.1 h1.2
  have h3 := tableMap_range h.2.2.2.1.1 h.2.2.2.1.2 h2.1 h2.2
  exact tableMap_range h.2.2.1.1 h.2.2.1.2 h3.1 h3.2

theorem bwd4_range {m : Machine} (h : MachineOK m) {s : Int} (h0 : 0 ≤ s)
    (h26 : s < 26) : 0 ≤ bwd4 m s ∧ bwd4 m s < 26 := by
  have h1 := tableMap_range h.2.2.1.2 h.2.2.1.1 h0 h26
  have h2 := tableMap_range h.2.2.2.1.2 h.2.2.2.1.1 h1.1 h1.2
  have h3 := tableMap_range h.2.2.2.2.1.2 h.2.2.2.2.1.1 h2.1 h2.2
  exact tableMap_range h.2.2.2.2.2.2 h.2.2.2.2.2.1 h3.1 h3.2

theorem bwd4_fwd4 {m : Machine} (h : MachineOK m) {s : Int} (h0 : 0 ≤ s)
    (h26 : s < 26) : bwd4 m (fwd4 m s) = s := by
  have h1 := tableMap_range h.2.2.2.2.2.1 h.2.2.2.2.2.2 h0 h26
  have h2 := tableMap_range h.2.2.2.2.1.1 h.2.2.2.2.1.2 h1.1 h1.2
  have h3 := tableMap_range h.2.2.2.1.1 h.2.2.2.1.2 h2.1 h2.2
  unfold bwd4 fwd4
  unfold rotorForward rotorBackward pbForward pbBackward
  rw [tableMap_inv h.2.2.1.1 h.2.2.1.2 h3.1 h3.2,
    tableMap_inv h.2.2.2.1.1 h.2.2.2.1.2 h2.1 h2.2,
    tableMap_inv h.2.2.2.2.1.1 h.2.2.2.2.1.2 h1.1 h1.2,
    tableMap_inv h.2.2.2.2.2.1 h.2.2.2.2.2.2 h0 h26]

theorem fwd4_bwd4 {m : Machine} (h : MachineOK m) {s : Int} (h0 : 0 ≤ s)
    (h26 : s < 26) : fwd4 m (bwd4 m s) = s := by
  have h1 := tableMap_range h.2.2.1.2 h.2.2.1.1 h0 h26
  have h2 := tableMap_range h.2.2.2.1.2 h.2.2.2.1.1 h1.1 h1.2
  have h3 := tableMap_range h.2.2.2.2.1.2 h.2.2.2.2.1.1 h2.1 h2.2
  unfold bwd4 fwd4
  unfold rotorForward rotorBackward pbForward pbBackward
  rw [tableMap_inv h.2.2.2.2.2.2 h.2.2.2.2.2.1 h3.1 h3.2,
    tableMap_inv h.2.2.2.2.1.2 h.2.2.2.2.1.1 h2.1 h2.2,
    tableMap_inv h.2.2.2.1.2 h.2.2.2.1.1 h1.1 h1.2,
    tableMap_inv h.2.2.1.2 h.2.2.1.1 h0 h26]

/-- Involution property of a reflector over valid positions. -/
def ReflInvolP (re : Reflector) : Prop :=
  ∀ s : Int, 0 ≤ s → s < 26 → reflect re (reflect re s) = s

/-- No-fixed-point property of a reflector over valid positions. -/
def ReflNoFixP (re : Reflector) : Prop :=
  ∀ s : Int, 0 ≤ s → s < 26 → reflect re s ≠ s

theorem int_ball26 {P : Int → Prop} (h : ∀ n : Nat, n < 26 → P (n : Int)) :
    ∀ s : Int, 0 ≤ s → s < 26 → P s := by
  intro s h0 h26
  have hs := h s.toNat (by omega)
  rwa [Int.toNat_of_nonneg h0] at hs

theorem fullMap_range {m : Machine} (h : MachineOK m) {s : Int} (h0 : 0 ≤ s)
    (h26 : s < 26) : 0 ≤ fullMap m s ∧ fullMap m s < 26 := by
  have h1 := fwd4_range h h0 h26
  have h2 := tableMap_range h.1 h.2.1 h1.1 h1.2
  exact bwd4_range h h2.1 h2.2

theorem fullMap_invol {m : Machine} (h : MachineOK m) (hre : ReflInvolP m.re)
    {s : Int} (h0 : 0 ≤ s) (h26 : s < 26) : fullMap m (fullMap m s) = s := by
  have h1 := fwd4_range h h0 h26
  have h2 := tableMap_range h.1 h.2.1 h1.1 h1.2
  have h3 := bwd4_range h h2.1 h2.2
  show bwd4 m (reflect m.re (fwd4 m (fullMap m s))) = s
  have e1 : fwd4 m (fullMap m s) = reflect m.re (fwd4 m s) := fwd4_bwd4 h h2.1 h2.2
  rw [e1, hre _ h1.1 h1.2, bwd4_fwd4 h h0 h26]

theorem fullMap_no_fix {m : Machine} (h : MachineOK m) (hre : ReflNoFixP m.re)
    {s : Int} (h0 : 0 ≤ s) (h26 : s < 26) : fullMap m s ≠ s := by
  intro heq
  have h1 := fwd4_range h h0 h26
  have h2 := tableMap_range h.1 h.2.1 h1.1 h1.2
  have e1 : fwd4 m (fullMap m s) = reflect m.re (fwd4 m s) := fwd4_bwd4 h h2.1 h2.2
  rw [heq] at e1
  exact hre _ h1.1 h1.2 e1.symm

/-! ### The concrete wirings -/

theorem rotorWiring_perm {n : String} {w : String} (h : rotorWiring n = some w) :
    Perm26 w.toList := by
  unfold rotorWiring at h
  split_ifs at h <;> (rw [← Option.some.inj h]; decide)

theorem reflectorWiring_props {n : String} {w : String} (h : reflectorWiring n = some w) :
    Perm26 w.toList ∧ ReflInvolP (mkReflector w) ∧ ReflNoFixP (mkReflector w) := by
  unfold reflectorWiring at h
  split_ifs at h <;>
    (rw [← Option.some.inj h]
     exact ⟨by decide, int_ball26 (by decide), int_ball26 (by decide)⟩)

theorem buildMachine_ok {cfg : Config} {m : Machine} (h : buildMachine cfg = some m) :
    MachineOK m ∧ ReflInvolP m.re ∧ ReflNoFixP m.re := by
  simp only [buildMachine] at h
  split at h
  case h_2 => exact absurd h (by simp)
  case h_1 w1 w2 w3 wr he1 he2 he3 he4 =>
    obtain rfl := Option.some.inj h
    obtain ⟨n1, hn1, hrw1⟩ := Option.bind_eq_some.mp he1
    obtain ⟨n2, hn2, hrw2⟩ := Option.bind_eq_some.mp he2
    obtain ⟨n3, hn3, hrw3⟩ := Option.bind_eq_some.mp he3
    have hw1 : Perm26 w1.toList := rotorWiring_perm hrw1
    have hw2 : Perm26 w2.toList := rotorWiring_perm hrw2
    have hw3 : Perm26 w3.toList := rotorWiring_perm hrw3
    obtain ⟨hwr, hinv, hnf⟩ := reflectorWiring_props he4
    refine ⟨⟨perm26_refl, hwr, ?_, ?_, ?_, mkPlugboard_left_perm _, mkPlugboard_right_perm _⟩,
      hinv, hnf⟩
    · exact rotorRotateToLetter_ok (setRingOpt_ok ⟨perm26_refl, hw1⟩ _) _
    · exact rotorRotateToLetter_ok (setRingOpt_ok ⟨perm26_refl, hw2⟩ _) _
    · exact rotorRotateToLetter_ok (setRingOpt_ok ⟨perm26_refl, hw3⟩ _) _

/-! ### Character facts, by enumeration of the 52 letters -/

def lowerAlphabet : List Char := "abcdefghijklmnopqrstuvwxyz".toList

def allLetters : List Char := alphabet ++ lowerAlphabet

theorem mem_alphabet_of_bounds {c : Char} (h1 : (65 : Nat) ≤ c.toNat) (h2 : c.toNat ≤ 90) :
    c ∈ alphabet := by
  have hc : Char.ofNat c.toNat = c := Char.ofNat_toNat c
  interval_cases hn : c.toNat <;> (rw [← hc]; decide)

theorem mem_lower_of_bounds {c : Char} (h1 : (97 : Nat) ≤ c.toNat) (h2 : c.toNat ≤ 122) :
    c ∈ lowerAlphabet := by
  have hc : Char.ofNat c.toNat = c := Char.ofNat_toNat c
  interval_cases hn : c.toNat <;> (rw [← hc]; decide)

theorem isAlpha_mem {c : Char} (h : isAlphaChar c = true) : c ∈ allLetters := by
  unfold isAlphaChar at h
  rcases Bool.or_eq_true_iff.mp h with h' | h'
  · have h1 : 'A' ≤ c := of_decide_eq_true (Bool.and_eq_true_iff.mp h').1
    have h2 : c ≤ 'Z' := of_decide_eq_true (Bool.and_eq_true_iff.mp h').2
    exact List.mem_append_left _ (mem_alphabet_of_bounds h1 h2)
  · have h1 : 'a' ≤ c := of_decide_eq_true (Bool.and_eq_true_iff.mp h').1
    have h2 : c ≤ 'z' := of_decide_eq_true (Bool.and_eq_true_iff.mp h').2
    exact List.mem_append_right _ (mem_lower_of_bounds h1 h2)

theorem upper_facts : ∀ D ∈ alphabet, D.toUpper = D ∧ D.toLower.toUpper = D ∧
    D.toLower.toLower = D.toLower ∧ D.toLower ≠ D ∧
    isAlphaChar D = true ∧ isAlphaChar D.toLower = true := by decide

theorem letter_facts : ∀ c ∈ allLetters, c.toUpper ∈ alphabet ∧
    (c.toLower = c → c.toUpper.toLower = c) ∧ (¬c.toLower = c → c.toUpper = c) := by decide

/-! ### Keyboard lemmas -/

theorem jsStrIndexOfAux_singleton (c : Char) (l : List Char) (i : Nat) :
    jsStrIndexOfAux [c] l i =
      if c ∈ l then ((i : Int) + (l.indexOf c : Int)) else -1 := by
  induction l generalizing i with
  | nil => simp [jsStrIndexOfAux, List.isPrefixOf]
  | cons x rest ih =>
    by_cases hcx : c = x
    · subst hcx
      have hpre : ([c].isPrefixOf (c :: rest)) = true := by
        simp [List.isPrefixOf]
      simp [jsStrIndexOfAux, hpre, List.indexOf_cons_self]
    · have hpre : ([c].isPrefixOf (x :: rest)) = false := by
        simp [List.isPrefixOf, hcx]
      have hne : (c == x) = false := by simp [hcx]
      rw [jsStrIndexOfAux, hpre]
      simp only [Bool.false_eq_true, if_false]
      rw [ih (i + 1)]
      have hne2 : (x == c) = false := beq_eq_false_iff_ne.mpr (Ne.symm hcx)
      have hind : (x :: rest).indexOf c = rest.indexOf c + 1 := by
        simp [List.indexOf_cons, hne2]
      by_cases hm : c ∈ rest
      · have hm2 : c ∈ x :: rest := List.mem_cons_of_mem x hm
        simp [hm, hm2, hind]
        omega
      · have hm2 : c ∉ x :: rest := by
          simp [List.mem_cons, hcx, hm]
        simp [hm, hm2]

theorem jsStrIndexOf_singleton {l : List Char} {c : Char} (h : c ∈ l) :
    jsStrIndexOf l [c] = (l.indexOf c : Int) := by
  unfold jsStrIndexOf
  rw [jsStrIndexOfAux_singleton]
  simp [h]

theorem kbForward_spec {u : Char} (hu : u ∈ alphabet) :
    kbForward [u] = (alphabet.indexOf u : Int) ∧ 0 ≤ kbForward [u] ∧ kbForward [u] < 26 := by
  have h1 : kbForward [u] = (alphabet.indexOf u : Int) := jsStrIndexOf_singleton hu
  have h2 : alphabet.indexOf u < 26 := by
    rw [← alphabet_length]
    exact List.indexOf_lt_length.mpr hu
  refine ⟨h1, ?_, ?_⟩ <;> rw [h1] <;> omega

theorem kbBackward_spec {s : Int} (h0 : 0 ≤ s) (_h26 : s < 26) :
    ∀ h : s.toNat < alphabet.length, kbBackward s = [alphabet.get ⟨s.toNat, h⟩] := by
  intro h
  unfold kbBackward jsCharAt
  rw [jsGet_of_lt h0 h]

/-! ### One codec step is an involution in lockstep -/

theorem stepped_re (m : Machine) : (stepped m).re = m.re := rfl

theorem codecStep_invol {m : Machine} (hOK : MachineOK m) (hre : ReflInvolP m.re) (c : Char) :
    ∃ (m' : Machine) (d : Char), codecStep m c = (m', [d]) ∧ codecStep m d = (m', [c]) ∧
      m'.re = m.re ∧ MachineOK m' := by
  by_cases hc : isAlphaChar c = true
  · -- alphabetic character
    have hcall := isAlpha_mem hc
    obtain ⟨huMem, hCaseLow, hCaseUp⟩ := letter_facts c hcall
    have hOK' : MachineOK (stepped m) := machineOK_stepped hOK
    have hre' : ReflInvolP (stepped m).re := hre
    obtain ⟨hs0eq, hs0nn, hs0lt⟩ := kbForward_spec huMem
    set s0 := kbForward [c.toUpper] with hs0def
    set s9 := fullMap (stepped m) s0 with hs9def
    obtain ⟨hs9nn, hs9lt⟩ := fullMap_range hOK' hs0nn hs0lt
    have hs9len : s9.toNat < alphabet.length := by rw [alphabet_length]; omega
    set D := alphabet.get ⟨s9.toNat, hs9len⟩ with hDdef
    have hDmem : D ∈ alphabet := alphabet.get_mem _ _
    obtain ⟨hDup, hDlu, hDll, hDlne, hDal, hDlal⟩ := upper_facts D hDmem
    have hLetter : (encipher m [c.toUpper]).letter = [D] := by
      rw [encipher_letter, ← hs0def, ← hs9def, kbBackward_spec hs9nn hs9lt hs9len]
    -- the response letter of the second pass
    have hIdxD : alphabet.indexOf D = s9.toNat := by
      have h5 := List.get_indexOf alphabet_nodup ⟨s9.toNat, hs9len⟩
      rw [← hDdef] at h5
      exact h5
    have hIndexD : kbForward [D] = s9 := by
      rw [(kbForward_spec hDmem).1, hIdxD]
      omega
    have hBack : fullMap (stepped m) (kbForward [D]) = s0 := by
      rw [hIndexD, hs9def]
      exact fullMap_invol hOK' hre' hs0nn hs0lt
    have hs0len : s0.toNat < alphabet.length := by rw [alphabet_length]; omega
    have hGetIdx : alphabet.get ⟨s0.toNat, hs0len⟩ = c.toUpper := by
      have h1 : s0.toNat = alphabet.indexOf c.toUpper := by rw [hs0eq]; omega
      have h2 : alphabet.indexOf c.toUpper < alphabet.length :=
        List.indexOf_lt_length.mpr huMem
      have h3 := @List.indexOf_get Char _ c.toUpper alphabet h2
      simp only [h1]
      exact h3
    have hLetter2 : ∀ e : Char, e.toUpper = D →
        (encipher m [e.toUpper]).letter = [c.toUpper] := by
      intro e he
      rw [encipher_letter, he, hBack, kbBackward_spec hs0nn hs0lt hs0len, hGetIdx]
    by_cases hlow : c.toLower = c
    · -- lowercase input: the output letter is lowercased
      refine ⟨stepped m, D.toLower, ?_, ?_, rfl, hOK'⟩
      · rw [codecStep, if_pos hc]
        simp only [encipher_machine, hLetter, if_pos hlow]
        rfl
      · rw [codecStep, if_pos hDlal]
        simp [encipher_machine, hLetter2 D.toLower hDlu, hDll, hCaseLow hlow]
    · -- uppercase input: the output letter stays uppercase
      refine ⟨stepped m, D, ?_, ?_, rfl, hOK'⟩
      · rw [codecStep, if_pos hc]
        simp only [encipher_machine, hLetter, if_neg hlow]
      · rw [codecStep, if_pos hDal]
        simp [encipher_machine, hLetter2 D hDup, if_neg hDlne, hCaseUp hlow]
  · -- non-alphabetic character: identity, no state change
    refine ⟨m, c, ?_, ?_, rfl, hOK⟩ <;> simp [codecStep, hc]

/-! ### The codec run is an involution -/

theorem codecRun_invol : ∀ (cs : List Char) (m : Machine), MachineOK m → ReflInvolP m.re →
    codecRun m ((codecRun m cs).2) = ((codecRun m cs).1, cs) := by
  intro cs
  induction cs with
  | nil => intro m _ _; rfl
  | cons c cs ih =>
    intro m hOK hre
    obtain ⟨m', d, h1, h2, hreEq, hOK'⟩ := codecStep_invol hOK hre c
    have hre' : ReflInvolP m'.re := by rw [hreEq]; exact hre
    have hrun : codecRun m (c :: cs) = ((codecRun m' cs).1, [d] ++ (codecRun m' cs).2) := by
      rw [codecRun, h1]
    rw [hrun]
    have hrun2 : codecRun m (d :: (codecRun m' cs).2) =
        ((codecRun m' ((codecRun m' cs).2)).1, [c] ++ (codecRun m' ((codecRun m' cs).2)).2) := by
      rw [codecRun, h2]
    have hih := ih m' hOK' hre'
    calc codecRun m ([d] ++ (codecRun m' cs).2)
        = codecRun m (d :: (codecRun m' cs).2) := rfl
      _ = ((codecRun m' ((codecRun m' cs).2)).1, [c] ++ (codecRun m' ((codecRun m' cs).2)).2) :=
          hrun2
      _ = ((codecRun m' cs).1, c :: cs) := by rw [hih]; rfl

theorem string_mk_toList : ∀ S : String, String.mk S.toList = S
  | { data := _ } => rfl

/-- A placeholder machine used only as a `getD` default in witnesses. -/
def emptyMachine : Machine :=
  { re := mkReflector "", r1 := mkRotor "" "", r2 := mkRotor "" "",
    r3 := mkRotor "" "", pb := mkPlugboard "" }

/-- Claim C1: for every Configuration whose rotor names and reflector name
resolve to known wirings (witnessed by a successful machine construction) and
for every input string, applying the plain text-codec transform with a fresh
engine and then applying it again to the result with another fresh engine
returns the input exactly, case and punctuation included. -/
theorem claim1_self_inverse (cfg : Config) (m : Machine) (S : String)
    (h : buildMachine cfg = some m) :
    (enigmaObfuscate S cfg).bind (fun t => enigmaObfuscate t cfg) = some S := by
  obtain ⟨hOK, hre, _⟩ := buildMachine_ok h
  unfold enigmaObfuscate
  rw [h]
  simp only [Option.map_some', Option.some_bind]
  have htl : (String.mk (codecRun m S.toList).2).toList = (codecRun m S.toList).2 := rfl
  rw [htl, codecRun_invol S.toList m hOK hre]
  exact congrArg some (string_mk_toList S)

/-- A configuration exercising ring settings, rotor start and the plugboard. -/
def cfgWitness : Config :=
  { rotors := "II-IV-I", rotorStart := "MCK", rings := "BCD",
    plugboard := "AB CD", reflector := "C" }

theorem claim1_self_inverse_witness :
    (enigmaObfuscate "Attack at Dawn! 123" cfgWitness).bind
      (fun t => enigmaObfuscate t cfgWitness) = some "Attack at Dawn! 123" :=
  claim1_self_inverse cfgWitness ((buildMachine cfgWitness).getD emptyMachine)
    "Attack at Dawn! 123" rfl

theorem codecStep_nonalpha (m : Machine) (c : Char) (hc : isAlphaChar c = false) :
    codecStep m c = (m, [c]) := by
  simp [codecStep, hc]

theorem codecRun_pointwise (S : List Char) : ∀ (m : Machine), MachineOK m →
    ReflInvolP m.re →
    (codecRun m S).2.length = S.length ∧
    ∀ (i : Nat) (hi : i < S.length) (ho : i < (codecRun m S).2.length),
      isAlphaChar (S.get ⟨i, hi⟩) = false →
      (codecRun m S).2.get ⟨i, ho⟩ = S.get ⟨i, hi⟩ := by
  induction S with
  | nil =>
    intro m _ _
    exact ⟨rfl, fun i hi => absurd hi (by simp)⟩
  | cons c cs ih =>
    intro m hOK hre
    obtain ⟨m', d, h1, _, hreEq, hOK'⟩ := codecStep_invol hOK hre c
    have hre' : ReflInvolP m'.re := by rw [hreEq]; exact hre
    obtain ⟨ihLen, ihGet⟩ := ih m' hOK' hre'
    by_cases hc : isAlphaChar c = true
    · have hrun : codecRun m (c :: cs) = ((codecRun m' cs).1, d :: (codecRun m' cs).2) := by
        rw [codecRun, h1]; rfl
      rw [hrun]
      constructor
      · simpa using ihLen
      · intro i hi ho hna
        cases i with
        | zero =>
          have hcc : (c :: cs).get ⟨0, hi⟩ = c := rfl
          rw [hcc] at hna
          rw [hna] at hc
          exact absurd hc (by decide)
        | succ k =>
          have hk : k < cs.length := by simpa using hi
          have hko : k < (codecRun m' cs).2.length := by rw [ihLen]; exact hk
          exact ihGet k hk hko hna
    · have hc2 : isAlphaChar c = false := by simpa using hc
      have h1' : codecStep m c = (m, [c]) := codecStep_nonalpha m c hc2
      -- the invariants are unchanged here, so redo the tail with machine m
      obtain ⟨ihLen2, ihGet2⟩ := ih m hOK hre
      have hrun : codecRun m (c :: cs) = ((codecRun m cs).1, c :: (codecRun m cs).2) := by
        rw [codecRun, h1']; rfl
      rw [hrun]
      constructor
      · simpa using ihLen2
      · intro i hi ho hna
        cases i with
        | zero => rfl
        | succ k =>
          have hk : k < cs.length := by simpa using hi
          have hko : k < (codecRun m cs).2.length := by rw [ihLen2]; exact hk
          exact ihGet2 k hk hko hna

/-- Claim C4: with an engine built from any resolvable Configuration, every
non-alphabetic character of the input appears unmodified at the same position
of the text-codec output (output and input have the same length), and
processing a non-alphabetic character leaves the machine state — in
particular all three rotors — unchanged. -/
theorem claim4_nonletter_passthrough (cfg : Config) (m : Machine) (S : List Char)
    (h : buildMachine cfg = some m) :
    ((codecRun m S).2.length = S.length ∧
     ∀ (i : Nat) (hi : i < S.length) (ho : i < (codecRun m S).2.length),
       isAlphaChar (S.get ⟨i, hi⟩) = false →
       (codecRun m S).2.get ⟨i, ho⟩ = S.get ⟨i, hi⟩) ∧
    (∀ (m' : Machine) (c : Char), isAlphaChar c = false → codecStep m' c = (m', [c])) := by
  obtain ⟨hOK, hre, _⟩ := buildMachine_ok h
  exact ⟨codecRun_pointwise S m hOK hre, fun m' c hc => codecStep_nonalpha m' c hc⟩

theorem claim4_nonletter_passthrough_witness :
    ((codecRun ((buildMachine cfgWitness).getD emptyMachine) ('a' :: '1' :: '!' :: [])).2.length
        = ('a' :: '1' :: '!' :: []).length ∧
     ∀ (i : Nat) (hi : i < ('a' :: '1' :: '!' :: []).length)
       (ho : i < (codecRun ((buildMachine cfgWitness).getD emptyMachine)
         ('a' :: '1' :: '!' :: [])).2.length),
       isAlphaChar (('a' :: '1' :: '!' :: []).get ⟨i, hi⟩) = false →
       (codecRun ((buildMachine cfgWitness).getD emptyMachine)
         ('a' :: '1' :: '!' :: [])).2.get ⟨i, ho⟩ = ('a' :: '1' :: '!' :: []).get ⟨i, hi⟩) ∧
    (∀ (m' : Machine) (c : Char), isAlphaChar c = false → codecStep m' c = (m', [c])) :=
  claim4_nonletter_passthrough cfgWitness ((buildMachine cfgWitness).getD emptyMachine)
    ('a' :: '1' :: '!' :: []) rfl

theorem rotorRotate_one_iterate (r : Rotor) (k : Nat) :
    (rotorRotate · 1 true)^[k] r =
      { r with left := rotFwdList^[k] r.left, right := rotFwdList^[k] r.right,
               notch := r.notch } := by
  induction k with
  | zero => rfl
  | succ n ihn =>
    rw [Function.iterate_succ_apply', ihn]
    simp [rotorRotate, rotStep, Function.iterate_succ_apply']

/-- Claim C5: one `encipher` call advances the rightmost rotor by exactly one
position (always, and the output is computed from the already-rotated rotor),
threads the signal in the fixed order keyboard, plugboard, r3, r2, r1,
reflector, r1, r2, r3, plugboard, keyboard, returns exactly the 10
intermediate positions in order, and never steps the left or middle rotor;
consequently enciphering "AAAA" steps the rightmost rotor exactly 4 times. -/
theorem claim5_encipher_effect (m : Machine) (letter : List Char) :
    (encipher m letter).machine.r1 = m.r1 ∧
    (encipher m letter).machine.r2 = m.r2 ∧
    (encipher m letter).machine.pb = m.pb ∧
    (encipher m letter).machine.re = m.re ∧
    (encipher m letter).machine.r3 = rotorRotate m.r3 1 true ∧
    (encipher m letter).machine.r3.left = rotFwdList m.r3.left ∧
    (encipher m letter).machine.r3.right = rotFwdList m.r3.right ∧
    (encipher m letter).path.length = 10 ∧
    (encipher m letter).path =
      [kbForward letter,
       pbForward m.pb (kbForward letter),
       rotorForward (rotorRotate m.r3 1 true) (pbForward m.pb (kbForward letter)),
       rotorForward m.r2 (rotorForward (rotorRotate m.r3 1 true)
         (pbForward m.pb (kbForward letter))),
       rotorForward m.r1 (rotorForward m.r2 (rotorForward (rotorRotate m.r3 1 true)
         (pbForward m.pb (kbForward letter)))),
       reflect m.re (rotorForward m.r1 (rotorForward m.r2
         (rotorForward (rotorRotate m.r3 1 true) (pbForward m.pb (kbForward letter))))),
       rotorBackward m.r1 (reflect m.re (rotorForward m.r1 (rotorForward m.r2
         (rotorForward (rotorRotate m.r3 1 true) (pbForward m.pb (kbForward letter)))))),
       rotorBackward m.r2 (rotorBackward m.r1 (reflect m.re (rotorForward m.r1
         (rotorForward m.r2 (rotorForward (rotorRotate m.r3 1 true)
           (pbForward m.pb (kbForward letter))))))),
       rotorBackward (rotorRotate m.r3 1 true) (rotorBackward m.r2 (rotorBackward m.r1
         (reflect m.re (rotorForward m.r1 (rotorForward m.r2
           (rotorForward (rotorRotate m.r3 1 true) (pbForward m.pb (kbForward letter)))))))),
       pbBackward m.pb (rotorBackward (rotorRotate m.r3 1 true) (rotorBackward m.r2
         (rotorBackward m.r1 (reflect m.re (rotorForward m.r1 (rotorForward m.r2
           (rotorForward (rotorRotate m.r3 1 true)
             (pbForward m.pb (kbForward letter)))))))))] ∧
    (encipher m letter).letter = kbBackward (pbBackward m.pb
      (rotorBackward (rotorRotate m.r3 1 true) (rotorBackward m.r2 (rotorBackward m.r1
        (reflect m.re (rotorForward m.r1 (rotorForward m.r2
          (rotorForward (rotorRotate m.r3 1 true)
            (pbForward m.pb (kbForward letter)))))))))) ∧
    (codecRun m ('A' :: 'A' :: 'A' :: 'A' :: [])).1.r3.left = rotFwdList^[4] m.r3.left ∧
    (codecRun m ('A' :: 'A' :: 'A' :: 'A' :: [])).1.r3.right = rotFwdList^[4] m.r3.right := by
  refine ⟨rfl, rfl, rfl, rfl, rfl, ?_, ?_, rfl, rfl, rfl, ?_, ?_⟩
  · show rotFwdList^[(1 : Int).toNat] m.r3.left = rotFwdList m.r3.left
    rfl
  · show rotFwdList^[(1 : Int).toNat] m.r3.right = rotFwdList m.r3.right
    rfl
  · show rotFwdList^[(1 : Int).toNat] (rotFwdList^[(1 : Int).toNat]
      (rotFwdList^[(1 : Int).toNat] (rotFwdList^[(1 : Int).toNat] m.r3.left)))
      = rotFwdList^[4] m.r3.left
    simp [← Function.iterate_add_apply]
  · show rotFwdList^[(1 : Int).toNat] (rotFwdList^[(1 : Int).toNat]
      (rotFwdList^[(1 : Int).toNat] (rotFwdList^[(1 : Int).toNat] m.r3.right)))
      = rotFwdList^[4] m.r3.right
    simp [← Function.iterate_add_apply]

/-- Claim C8: for every plugboard pair string and every position below 26,
the backward plugboard map inverts the forward one. -/
theorem claim8_plugboard_inverse (pairsStr : String) (p : Nat) (hp : p < 26) :
    pbBackward (mkPlugboard pairsStr) (pbForward (mkPlugboard pairsStr) (p : Int))
      = (p : Int) :=
  tableMap_inv (mkPlugboard_left_perm pairsStr) (mkPlugboard_right_perm pairsStr)
    (Int.ofNat_nonneg p) (by exact_mod_cast hp)

theorem claim8_plugboard_inverse_witness :
    pbBackward (mkPlugboard "AB CD") (pbForward (mkPlugboard "AB CD") ((5 : Nat) : Int))
      = ((5 : Nat) : Int) :=
  claim8_plugboard_inverse "AB CD" 5 (by decide)

/-- Claim C9: every rotor operation — rotate with any count and direction,
rotateToLetter, setRing — preserves the invariant that both table sides are
permutations of the 26 uppercase letters, and on such a rotor the forward and
backward lookups always return a valid position below 26. -/
theorem claim9_rotor_invariant {r : Rotor} (h : RotorOK r) (n k : Int)
    (fwd : Bool) (c : List Char) :
    RotorOK (rotorRotate r n fwd) ∧ RotorOK (rotorRotateToLetter r c) ∧
    RotorOK (rotorSetRing r k) ∧
    (∀ s : Int, 0 ≤ s → s < 26 →
      0 ≤ rotorForward r s ∧ rotorForward r s < 26 ∧
      0 ≤ rotorBackward r s ∧ rotorBackward r s < 26) := by
  refine ⟨rotorRotate_ok h n fwd, rotorRotateToLetter_ok h c, rotorSetRing_ok h k, ?_⟩
  intro s h0 h26
  obtain ⟨hf0, hf26⟩ := tableMap_range h.1 h.2 h0 h26
  obtain ⟨hb0, hb26⟩ := tableMap_range h.2 h.1 h0 h26
  exact ⟨hf0, hf26, hb0, hb26⟩

theorem claim9_rotor_invariant_witness :
    (RotorOK (rotorRotate (mkRotor "EKMFLGDQVZNTOWYHXUSPAIBRCJ" "Q") 3 false) ∧
     RotorOK (rotorRotateToLetter (mkRotor "EKMFLGDQVZNTOWYHXUSPAIBRCJ" "Q") ('M' :: [])) ∧
     RotorOK (rotorSetRing (mkRotor "EKMFLGDQVZNTOWYHXUSPAIBRCJ" "Q") 2) ∧
     (∀ s : Int, 0 ≤ s → s < 26 →
       0 ≤ rotorForward (mkRotor "EKMFLGDQVZNTOWYHXUSPAIBRCJ" "Q") s ∧
       rotorForward (mkRotor "EKMFLGDQVZNTOWYHXUSPAIBRCJ" "Q") s < 26 ∧
       0 ≤ rotorBackward (mkRotor "EKMFLGDQVZNTOWYHXUSPAIBRCJ" "Q") s ∧
       rotorBackward (mkRotor "EKMFLGDQVZNTOWYHXUSPAIBRCJ" "Q") s < 26)) :=
  claim9_rotor_invariant ⟨perm26_refl, by decide⟩ 3 2 false ('M' :: [])

theorem codecRun_fst_ok (S : List Char) : ∀ (m : Machine), MachineOK m →
    MachineOK (codecRun m S).1 ∧ (codecRun m S).1.re = m.re := by
  induction S with
  | nil => intro m hOK; exact ⟨hOK, rfl⟩
  | cons c cs ih =>
    intro m hOK
    by_cases hc : isAlphaChar c = true
    · have hfst : (codecStep m c).1 = stepped m := by
        rw [codecStep, if_pos hc]
        rfl
      have hrun : (codecRun m (c :: cs)).1 = (codecRun (stepped m) cs).1 := by
        rw [codecRun, hfst]
      rw [hrun]
      exact (ih (stepped m) (machineOK_stepped hOK))
    · have hc2 : isAlphaChar c = false := by simpa using hc
      have hrun : (codecRun m (c :: cs)).1 = (codecRun m cs).1 := by
        rw [codecRun, codecStep_nonalpha m c hc2]
      rw [hrun]
      exact ih m hOK

/-- Claim C10 (implicit): with an engine built from any resolvable
Configuration (whose reflector is therefore one of the built-in A, B, C) and
after processing any prefix of text, enciphering any alphabetic character
never returns the uppercased input letter itself: the cipher has no fixed
points. -/
theorem claim10_no_fixed_point (cfg : Config) (m : Machine) (S : List Char) (c : Char)
    (h : buildMachine cfg = some m) (hc : isAlphaChar c = true) :
    (encipher (codecRun m S).1 [c.toUpper]).letter ≠ [c.toUpper] := by
  obtain ⟨hOK, _, hnf⟩ := buildMachine_ok h
  obtain ⟨hOKS, hreS⟩ := codecRun_fst_ok S m hOK
  set mS := (codecRun m S).1 with hmS
  have hnfS : ReflNoFixP mS.re := by rw [hreS]; exact hnf
  have hOK' : MachineOK (stepped mS) := machineOK_stepped hOKS
  have hnf' : ReflNoFixP (stepped mS).re := hnfS
  obtain ⟨huMem, _, _⟩ := letter_facts c (isAlpha_mem hc)
  obtain ⟨hs0eq, hs0nn, hs0lt⟩ := kbForward_spec huMem
  set s0 := kbForward [c.toUpper] with hs0def
  set s9 := fullMap (stepped mS) s0 with hs9def
  obtain ⟨hs9nn, hs9lt⟩ := fullMap_range hOK' hs0nn hs0lt
  have hne : s9 ≠ s0 := fullMap_no_fix hOK' hnf' hs0nn hs0lt
  have hs9len : s9.toNat < alphabet.length := by rw [alphabet_length]; omega
  have hs0len : s0.toNat < alphabet.length := by rw [alphabet_length]; omega
  have hLetter : (encipher mS [c.toUpper]).letter = [alphabet.get ⟨s9.toNat, hs9len⟩] := by
    rw [encipher_letter, ← hs0def, ← hs9def, kbBackward_spec hs9nn hs9lt hs9len]
  rw [hLetter]
  intro heq
  have hDeq : alphabet.get ⟨s9.toNat, hs9len⟩ = c.toUpper := List.cons.inj heq |>.1
  have hGetIdx : alphabet.get ⟨s0.toNat, hs0len⟩ = c.toUpper := by
    have h1 : s0.toNat = alphabet.indexOf c.toUpper := by rw [hs0eq]; omega
    have h2 : alphabet.indexOf c.toUpper < alphabet.length :=
      List.indexOf_lt_length.mpr huMem
    have h3 := @List.indexOf_get Char _ c.toUpper alphabet h2
    simp only [h1]
    exact h3
  have hfin : (⟨s9.toNat, hs9len⟩ : Fin alphabet.length) = ⟨s0.toNat, hs0len⟩ :=
    (List.Nodup.get_inj_iff alphabet_nodup).mp (hDeq.trans hGetIdx.symm)
  have : s9.toNat = s0.toNat := Fin.mk.inj_iff.mp hfin
  omega

theorem claim10_no_fixed_point_witness :
    (encipher (codecRun ((buildMachine cfgWitness).getD emptyMachine)
        ('H' :: 'i' :: [])).1 ['x'.toUpper]).letter ≠ ['x'.toUpper] :=
  claim10_no_fixed_point cfgWitness ((buildMachine cfgWitness).getD emptyMachine)
    ('H' :: 'i' :: []) 'x' rfl (by decide)

/-- Claim C2 counterexample: with the conflicting pair string "AB AC", the
first-applied-wins policy would produce the table of "AB" alone (the later
conflicting pair skipped entirely), but the constructor produces a different
table: conflicting pairs are applied against the already-mutated table, not
skipped. -/
theorem claim2_counterexample : (mkPlugboard "AB AC").left ≠ (mkPlugboard "AB").left := by
  decide

/-- Claim C2, amended: plugboard construction never skips a pair of two
letters — both `indexOf` lookups always succeed, because the swaps preserve
the set of letters in the table — so every later conflicting pair is applied
as a swap at the letters' current positions in the already-mutated table. -/
theorem claim2_conflicting_pairs_applied (l : List Char) (a b : Char) (rest : List Char)
    (hPerm : Perm26 l) (ha : a.toUpper ∈ alphabet) (hb : b.toUpper ∈ alphabet) :
    pbApplyPair l (a :: b :: rest) =
      (l.set (l.indexOf a.toUpper) (l.getD (l.indexOf b.toUpper) a.toUpper)).set
        (l.indexOf b.toUpper) (l.getD (l.indexOf a.toUpper) a.toUpper) := by
  have haL : a.toUpper ∈ l := (perm26_mem hPerm).mpr ha
  have hbL : b.toUpper ∈ l := (perm26_mem hPerm).mpr hb
  have hA : jsIndexOf l (some a.toUpper) = (l.indexOf a.toUpper : Int) := jsIndexOf_of_mem haL
  have hB : jsIndexOf l (some b.toUpper) = (l.indexOf b.toUpper : Int) := jsIndexOf_of_mem hbL
  have hAne : jsIndexOf l (some a.toUpper) ≠ -1 := by rw [hA]; omega
  have hBne : jsIndexOf l (some b.toUpper) ≠ -1 := by rw [hB]; omega
  show (if jsIndexOf l (some a.toUpper) ≠ -1 ∧ jsIndexOf l (some b.toUpper) ≠ -1 then
      (l.set (jsIndexOf l (some a.toUpper)).toNat
        (l.getD (jsIndexOf l (some b.toUpper)).toNat a.toUpper)).set
        (jsIndexOf l (some b.toUpper)).toNat
        (l.getD (jsIndexOf l (some a.toUpper)).toNat a.toUpper)
    else l) = _
  rw [if_pos ⟨hAne, hBne⟩, hA, hB]
  simp

theorem claim2_conflicting_pairs_applied_witness :
    pbApplyPair (pbApplyPair alphabet ('A' :: 'B' :: [])) ('A' :: 'C' :: []) =
      (((pbApplyPair alphabet ('A' :: 'B' :: [])).set
          ((pbApplyPair alphabet ('A' :: 'B' :: [])).indexOf 'A'.toUpper)
          ((pbApplyPair alphabet ('A' :: 'B' :: [])).getD
            ((pbApplyPair alphabet ('A' :: 'B' :: [])).indexOf 'C'.toUpper) 'A'.toUpper)).set
        ((pbApplyPair alphabet ('A' :: 'B' :: [])).indexOf 'C'.toUpper)
        ((pbApplyPair alphabet ('A' :: 'B' :: [])).getD
          ((pbApplyPair alphabet ('A' :: 'B' :: [])).indexOf 'A'.toUpper) 'A'.toUpper)) :=
  claim2_conflicting_pairs_applied (pbApplyPair alphabet ('A' :: 'B' :: [])) 'A' 'C' []
    (pbApplyPair_perm perm26_refl ('A' :: 'B' :: [])) (by decide) (by decide)

/-! ### The obfuscation pipeline text passes (regex replaces as scanners)

Each JS `String.replace(regex, repl)` with the global flag scans the source
left to right, replaces non-overlapping matches and never rescans replacement
text.  The regexes used by extension.ts are deterministic for a maximal-munch
scanner (each greedy class is disjoint from what must follow it), so every
pass is embedded as: try the pattern at the current position; on a match emit
the replacement and continue after the matched text, otherwise emit the
character and move one position right.  The `\b` assertions are handled by
threading the previous original character through the scan. -/

def jsDigit (c : Char) : Bool := '0' ≤ c && c ≤ '9'

/-- JS `\w` = [A-Za-z0-9_]. -/
def jsWordChar (c : Char) : Bool :=
  ('a' ≤ c && c ≤ 'z') || ('A' ≤ c && c ≤ 'Z') || jsDigit c || c = '_'

/-- The literal character class `[w.]` of `encodeArithmetic` (the letter `w`
and the dot — not `\w`). -/
def wDotChar (c : Char) : Bool := c = 'w' || c = '.'

/-- `[a-zA-Z_$]`, the first character of the variable-name group. -/
def nameStart (c : Char) : Bool :=
  ('a' ≤ c && c ≤ 'z') || ('A' ≤ c && c ≤ 'Z') || c = '_' || c = '$'

/-- `[\w$]`, the remaining characters of the variable-name group. -/
def nameRestChar (c : Char) : Bool := jsWordChar c || c = '$'

/-- Word-boundary test for `\b` before a word character: the previous
character (none at the start of the string) must not be a word character. -/
def prevIsWord : Option Char → Bool
  | none => false
  | some p => jsWordChar p

/-- A replace step: `matcher prev s` returns the emitted replacement, the new
previous-character and the unconsumed rest when the regex matches at the head
of `s`. -/
def Matcher : Type := Option Char → List Char → Option (List Char × Option Char × List Char)

/-- The generic global-replace scanner, fueled for structural recursion; the
fuel (initially the string length) never runs out because every match consumes
at least one character. -/
def scanFuelP (matcher : Matcher) : Nat → Option Char → List Char → List Char
  | 0, _, s => s
  | _ + 1, _, [] => []
  | fuel + 1, prev, c :: cs =>
    match matcher prev (c :: cs) with
    | some (out, newPrev, t) => out ++ scanFuelP matcher fuel newPrev t
    | none => c :: scanFuelP matcher fuel (some c) cs

def scanP (matcher : Matcher) (prev : Option Char) (s : List Char) : List Char :=
  scanFuelP matcher s.length prev s

/-- One whole global replace pass over a string. -/
def runScanP (matcher : Matcher) (s : List Char) : List Char := scanP matcher none s

/-- Matching a literal at the head of the input. -/
def expectLit (lit : List Char) (s : List Char) : Option (List Char) :=
  if lit.isPrefixOf s then some (s.drop lit.length) else none

/-! #### encodeArithmetic (extension.ts lines 190-204) -/

/-- Match `([w.]+)\s*OP\s*(\d+)` at the head of `s`. -/
def matchOpPattern (op : Char) (s : List Char) : Option (List Char × List Char × List Char) :=
  let g1 := s.takeWhile wDotChar
  if g1.isEmpty then none else
  match (s.dropWhile wDotChar).dropWhile jsSpace with
  | o :: r2 =>
    if o = op then
      let r3 := r2.dropWhile jsSpace
      let g2 := r3.takeWhile jsDigit
      if g2.isEmpty then none else some (g1, g2, r3.dropWhile jsDigit)
    else none
  | [] => none

/-- `parseInt` on the digits captured by `(\d+)`. -/
def parseNat (ds : List Char) : Nat := ds.foldl (fun n c => n * 10 + (c.toNat - 48)) 0

/-- Floor base-2 logarithm, fueled so the kernel can evaluate it. -/
def natLog2Aux : Nat → Nat → Nat
  | 0, _ => 0
  | fuel + 1, n => if n < 2 then 0 else natLog2Aux fuel (n / 2) + 1

def natLog2 (n : Nat) : Nat := natLog2Aux n n

/-- `Math.log2` as printed into the replacement: exact for powers of two (the
only case the spec claims); for other operands JS would print a non-integer
float, which no claim depends on and which is not modelled. Zero operands
would print "-Infinity" in JS; no claim depends on that either. -/
def log2Repr (n : Nat) : List Char := (toString (natLog2 n)).toList

def addRepl (a b : List Char) : List Char :=
  '(' :: a ++ " - (".toList ++ (toString (-(parseNat b : Int))).toList ++ [')', ')']

def subRepl (a b : List Char) : List Char :=
  '(' :: a ++ " + (".toList ++ (toString (-(parseNat b : Int))).toList ++ [')', ')']

def mulRepl (a b : List Char) : List Char :=
  '(' :: '(' :: a ++ " << ".toList ++ log2Repr (parseNat b) ++ ") + ".toList ++
    a ++ " * ".toList ++ (toString (parseNat b % 2)).toList ++ [')']

def arithMatcher (op : Char) (repl : List Char → List Char → List Char) : Matcher :=
  fun _ s =>
    (matchOpPattern op s).map (fun g => (repl g.1 g.2.1, some (g.2.1.getLastD '0'), g.2.2))

/-- `encodeArithmetic`: the three replaces run in source order +, *, -. -/
def encodeArithmetic (code : String) : String :=
  { data := runScanP (arithMatcher '-' subRepl)
      (runScanP (arithMatcher '*' mulRepl)
        (runScanP (arithMatcher '+' addRepl) code.toList)) }

/-! #### applyVariableHiding (extension.ts lines 206-212) -/

/-- The keyword alternation `(let|const|var)`; the alternatives start with
distinct characters, so at most one can match. -/
def matchKw (s : List Char) : Option (List Char × List Char) :=
  match expectLit "let".toList s with
  | some r => some ("let".toList, r)
  | none =>
    match expectLit "const".toList s with
    | some r => some ("const".toList, r)
    | none => (expectLit "var".toList s).map (fun r => ("var".toList, r))

/-- `/\b(let|const|var)\s+([a-zA-Z_$][\w$]*)\s*=\s*([^;]+);/` with replacement
`keyword name = (value * 1 + 0);`. -/
def varMatcher : Matcher := fun prev s =>
  if prevIsWord prev then none else
  match matchKw s with
  | none => none
  | some (kw, r1) =>
    if (r1.takeWhile jsSpace).isEmpty then none else
    match r1.dropWhile jsSpace with
    | [] => none
    | n0 :: r3 =>
      if nameStart n0 then
        let nrest := r3.takeWhile nameRestChar
        match (r3.dropWhile nameRestChar).dropWhile jsSpace with
        | '=' :: r6 =>
          let r7 := r6.dropWhile jsSpace
          let v := r7.takeWhile (fun c => !(c = ';'))
          if v.isEmpty then none else
          match r7.dropWhile (fun c => !(c = ';')) with
          | ';' :: r8 =>
            some (kw ++ ' ' :: (n0 :: nrest) ++ " = (".toList ++ v ++ " * 1 + 0);".toList,
                  some ';', r8)
          | _ => none
        | _ => none
      else none

def applyVariableHiding (code : String) : String :=
  { data := runScanP varMatcher code.toList }

/-! #### removeObfuscation (extension.ts lines 253-266) -/

/-- `/\bfunction\s+_dummy\d+[^}]+}/g` replaced by the empty string. -/
def junkMatcher : Matcher := fun prev s =>
  if prevIsWord prev then none else
  (expectLit "function".toList s).bind fun r1 =>
  if (r1.takeWhile jsSpace).isEmpty then none else
  (expectLit "_dummy".toList (r1.dropWhile jsSpace)).bind fun r3 =>
  if (r3.takeWhile jsDigit).isEmpty then none else
  let r4 := r3.dropWhile jsDigit
  if (r4.takeWhile (fun c => !(c = '}'))).isEmpty then none else
  match r4.dropWhile (fun c => !(c = '}')) with
  | '}' :: r5 => some ([], some '}', r5)
  | _ => none

/-- A literal pattern followed by `\n?`, replaced by the empty string
(the `const _t = performance.now();` dummy operation). -/
def litNLMatcher (lit : List Char) : Matcher := fun _ s =>
  (expectLit lit s).map fun r =>
    match r with
    | '\n' :: r2 => ([], some '\n', r2)
    | _ => ([], some (lit.getLastD ' '), r)

def d1Matcher : Matcher := litNLMatcher "const _t = performance.now();".toList

/-- `/if\(_t % 2 === 0\)[^}]+}\n?/g` replaced by the empty string. -/
def d2Matcher : Matcher := fun _ s =>
  (expectLit "if(_t % 2 === 0)".toList s).bind fun r =>
  if (r.takeWhile (fun c => !(c = '}'))).isEmpty then none else
  match r.dropWhile (fun c => !(c = '}')) with
  | '}' :: r2 =>
    match r2 with
    | '\n' :: r3 => some ([], some '\n', r3)
    | _ => some ([], some '}', r2)
  | _ => none

/-- `/try\s*{\s*_dummy\d+\(\);\s*}\s*catch\(e\)\s*{[^}]+}\n?/g` replaced by
the empty string. -/
def d3Matcher : Matcher := fun _ s =>
  (expectLit "try".toList s).bind fun r1 =>
  match r1.dropWhile jsSpace with
  | '{' :: r3 =>
    (expectLit "_dummy".toList (r3.dropWhile jsSpace)).bind fun r5 =>
    if (r5.takeWhile jsDigit).isEmpty then none else
    (expectLit "();".toList (r5.dropWhile jsDigit)).bind fun r7 =>
    match r7.dropWhile jsSpace with
    | '}' :: r9 =>
      (expectLit "catch(e)".toList (r9.dropWhile jsSpace)).bind fun r11 =>
      match r11.dropWhile jsSpace with
      | '{' :: r13 =>
        if (r13.takeWhile (fun c => !(c = '}'))).isEmpty then none else
        match r13.dropWhile (fun c => !(c = '}')) with
        | '}' :: r14 =>
          match r14 with
          | '\n' :: r15 => some ([], some '\n', r15)
          | _ => some ([], some '}', r14)
        | _ => none
      | _ => none
    | _ => none
  | _ => none

/-- The tail `\s*\*\s*1\s*\+\s*0\)` of the wrapper pattern. -/
def wrapTail (s : List Char) : Option (List Char) :=
  match s.dropWhile jsSpace with
  | '*' :: r1 =>
    match r1.dropWhile jsSpace with
    | '1' :: r2 =>
      match r2.dropWhile jsSpace with
      | '+' :: r3 =>
        match r3.dropWhile jsSpace with
        | '0' :: ')' :: r5 => some r5
        | _ => none
      | _ => none
    | _ => none
  | _ => none

/-- The lazy group `(.*?)` before `wrapTail`: the shortest prefix (of
non-line-terminator characters) after which the tail matches. -/
def wrapLazy : List Char → Option (List Char × List Char)
  | [] => none
  | c :: cs =>
    match wrapTail (c :: cs) with
    | some rest => some ([], rest)
    | none =>
      if c = '\n' || c = '\r' then none
      else (wrapLazy cs).map (fun p => (c :: p.1, p.2))

/-- `/\((.*?)\s*\*\s*1\s*\+\s*0\)/g` replaced by the group `$1`. -/
def wrapMatcher : Matcher := fun _ s =>
  match s with
  | '(' :: cs => (wrapLazy cs).map (fun p => (p.1, some ')', p.2))
  | _ => none

/-- `removeObfuscation`: the four replaces run in source order — junk
functions, the three dummy operations, then the variable wrapper. -/
def removeObfuscation (code : String) : String :=
  { data := runScanP wrapMatcher (runScanP d3Matcher (runScanP d2Matcher
      (runScanP d1Matcher (runScanP junkMatcher code.toList)))) }

example : encodeArithmetic "x + 1" = "x + 1" := by decide
example : encodeArithmetic "w + 1" = "(w - (-1))" := by decide
example : encodeArithmetic "w - 1" = "(w + (-1))" := by decide
example : encodeArithmetic "w * 8" = "((w << 3) + w * 0)" := by decide
example : applyVariableHiding "let x = 3;" = "let x = (3 * 1 + 0);" := by decide
example : removeObfuscation "let x = (3 * 1 + 0);" = "let x = 3;" := by decide
example : removeObfuscation "((a * 1 + 0) * 1 + 0)" = "(a * 1 + 0)" := by decide
example : removeObfuscation "(a * 1 + 0)" = "a" := by decide
example : removeObfuscation "function _dummy1() { return 1; }" = "" := by decide

/-! ### Generic facts about the scanners -/

theorem expectLit_eq {lit s r : List Char} (h : expectLit lit s = some r) :
    s = lit ++ r := by
  unfold expectLit at h
  split at h
  case isTrue hp =>
    obtain ⟨u, hu⟩ := List.isPrefixOf_iff_prefix.mp hp
    obtain rfl := Option.some.inj h
    rw [← hu, List.drop_left]
  case isFalse => exact absurd h (by simp)

theorem takeDrop_len (p : Char → Bool) (l : List Char) :
    (l.takeWhile p).length + (l.dropWhile p).length = l.length := by
  rw [← List.length_append, List.takeWhile_append_dropWhile]

theorem dropWhile_len_le (p : Char → Bool) (l : List Char) :
    (l.dropWhile p).length ≤ l.length := by
  have := takeDrop_len p l
  omega

theorem dropWhile_len_lt {p : Char → Bool} {l : List Char}
    (h : (l.takeWhile p).isEmpty = false) : (l.dropWhile p).length < l.length := by
  have hsum := takeDrop_len p l
  have hne : l.takeWhile p ≠ [] := List.isEmpty_eq_false.mp h
  have hpos : 0 < (l.takeWhile p).length := List.length_pos.mpr hne
  omega

/-- A matcher that always consumes at least one character. -/
def Consumes (matcher : Matcher) : Prop :=
  ∀ p s out p2 t, matcher p s = some (out, p2, t) → t.length < s.length

theorem scanFuelP_congr {matcher : Matcher} (hcons : Consumes matcher) :
    ∀ (f1 f2 : Nat) (prev : Option Char) (s : List Char),
      s.length ≤ f1 → s.length ≤ f2 →
      scanFuelP matcher f1 prev s = scanFuelP matcher f2 prev s := by
  intro f1
  induction f1 with
  | zero =>
    intro f2 prev s h1 _
    have hs : s = [] := List.length_eq_zero.mp (Nat.le_zero.mp h1)
    subst hs
    cases f2 <;> rfl
  | succ f ih =>
    intro f2 prev s h1 h2
    cases s with
    | nil => cases f2 <;> rfl
    | cons c cs =>
      cases f2 with
      | zero => simp at h2
      | succ g =>
        simp only [scanFuelP]
        cases hm : matcher prev (c :: cs) with
        | none =>
          have h1' : cs.length ≤ f := by simpa using h1
          have h2' : cs.length ≤ g := by simpa using h2
          dsimp only
          rw [ih g (some c) cs h1' h2']
        | some trip =>
          obtain ⟨out, p2, t⟩ := trip
          have ht := hcons _ _ _ _ _ hm
          have h1' : t.length ≤ f := by simp at h1 ht ⊢; omega
          have h2' : t.length ≤ g := by simp at h2 ht ⊢; omega
          dsimp only
          rw [ih g p2 t h1' h2']

theorem scanP_nil (matcher : Matcher) (prev : Option Char) : scanP matcher prev [] = [] := rfl

theorem scanP_match {matcher : Matcher} (hcons : Consumes matcher)
    {prev : Option Char} {c : Char} {cs out : List Char} {p2 : Option Char} {t : List Char}
    (h : matcher prev (c :: cs) = some (out, p2, t)) :
    scanP matcher prev (c :: cs) = out ++ scanP matcher p2 t := by
  have ht := hcons _ _ _ _ _ h
  unfold scanP
  have hstep : scanFuelP matcher (c :: cs).length prev (c :: cs)
      = out ++ scanFuelP matcher cs.length p2 t := by
    simp only [List.length_cons, scanFuelP, h]
  rw [hstep]
  have ht' : t.length ≤ cs.length := by simp at ht; omega
  rw [scanFuelP_congr hcons cs.length t.length p2 t ht' le_rfl]

theorem scanP_skip {matcher : Matcher} {prev : Option Char} {c : Char} {cs : List Char}
    (h : matcher prev (c :: cs) = none) :
    scanP matcher prev (c :: cs) = c :: scanP matcher (some c) cs := by
  unfold scanP
  simp only [List.length_cons, scanFuelP, h]

theorem scanFuelP_id {matcher : Matcher} :
    ∀ (fuel : Nat) (prev : Option Char) (s : List Char),
      (∀ (p : Option Char) (n : Nat), matcher p (s.drop n) = none) →
      scanFuelP matcher fuel prev s = s := by
  intro fuel
  induction fuel with
  | zero => intro prev s _; rfl
  | succ f ih =>
    intro prev s h
    cases s with
    | nil => rfl
    | cons c cs =>
      have h0 : matcher prev (c :: cs) = none := by simpa using h prev 0
      simp only [scanFuelP, h0]
      rw [ih (some c) cs (fun p n => by simpa using h p (n + 1))]

theorem runScanP_id {matcher : Matcher} (s : List Char)
    (h : ∀ (p : Option Char) (n : Nat), matcher p (s.drop n) = none) :
    runScanP matcher s = s :=
  scanFuelP_id s.length none s h

theorem matchOpPattern_consumes {op : Char} {s g1 g2 t : List Char}
    (h : matchOpPattern op s = some (g1, g2, t)) : t.length < s.length := by
  simp only [matchOpPattern] at h
  split at h
  · exact absurd h (by simp)
  next hg1 =>
    split at h
    next o r2 heq =>
      split at h
      next hop =>
        split at h
        · exact absurd h (by simp)
        next hg2 =>
          simp only [Option.some.injEq, Prod.mk.injEq] at h
          obtain ⟨rfl, rfl, rfl⟩ := h
          have e1 : (s.dropWhile wDotChar).length < s.length := by
            apply dropWhile_len_lt
            simpa using hg1
          have e2 : ((s.dropWhile wDotChar).dropWhile jsSpace).length
              ≤ (s.dropWhile wDotChar).length := dropWhile_len_le _ _
          have e3 : r2.length + 1 = ((s.dropWhile wDotChar).dropWhile jsSpace).length := by
            rw [heq]; rfl
          have e4 : (r2.dropWhile jsSpace).length ≤ r2.length := dropWhile_len_le _ _
          have e5 : ((r2.dropWhile jsSpace).dropWhile jsDigit).length
              < (r2.dropWhile jsSpace).length := by
            apply dropWhile_len_lt
            simpa using hg2
          omega
      next => exact absurd h (by simp)
    next => exact absurd h (by simp)

theorem arithMatcher_consumes (op : Char) (repl : List Char → List Char → List Char) :
    Consumes (arithMatcher op repl) := by
  intro p s out p2 t h
  unfold arithMatcher at h
  cases hm : matchOpPattern op s with
  | none => rw [hm] at h; exact absurd h (by simp)
  | some g =>
    obtain ⟨g1, g2, t'⟩ := g
    rw [hm] at h
    simp only [Option.map_some', Option.some.injEq, Prod.mk.injEq] at h
    obtain ⟨-, -, rfl⟩ := h
    exact matchOpPattern_consumes hm

theorem junkMatcher_consumes : Consumes junkMatcher := by
  intro p s out p2 t h
  simp only [junkMatcher] at h
  split at h
  · exact absurd h (by simp)
  obtain ⟨r1, he1, h⟩ := Option.bind_eq_some.mp h
  split at h
  · exact absurd h (by simp)
  next hws =>
    obtain ⟨r3, he3, h⟩ := Option.bind_eq_some.mp h
    split at h
    · exact absurd h (by simp)
    next hds =>
      split at h
      · exact absurd h (by simp)
      next hbody =>
        split at h
        next r5 heq =>
          simp only [Option.some.injEq, Prod.mk.injEq] at h
          obtain ⟨-, -, rfl⟩ := h
          have e1 : s.length = 8 + r1.length := by
            have hl : ("function".toList).length = 8 := rfl
            rw [expectLit_eq he1, List.length_append, hl]
          have e2 : (r1.dropWhile jsSpace).length < r1.length := by
            apply dropWhile_len_lt
            simpa using hws
          have e3 : (r1.dropWhile jsSpace).length = 6 + r3.length := by
            have hl : ("_dummy".toList).length = 6 := rfl
            rw [expectLit_eq he3, List.length_append, hl]
          have e4 : ((r3.dropWhile jsDigit).dropWhile (fun c => !(c = '}'))).length
              ≤ (r3.dropWhile jsDigit).length := dropWhile_len_le _ _
          have e5 : (r3.dropWhile jsDigit).length ≤ r3.length := dropWhile_len_le _ _
          have e6 : ((r3.dropWhile jsDigit).dropWhile (fun c => !(c = '}'))).length
              = r5.length + 1 := by rw [heq]; rfl
          omega
        next => exact absurd h (by simp)

theorem matchKw_eq {s kw r1 : List Char} (h : matchKw s = some (kw, r1)) :
    s = kw ++ r1 ∧ 0 < kw.length := by
  simp only [matchKw] at h
  split at h
  next r he =>
    simp only [Option.some.injEq, Prod.mk.injEq] at h
    obtain ⟨rfl, rfl⟩ := h
    exact ⟨expectLit_eq he, by decide⟩
  next =>
    split at h
    next r he =>
      simp only [Option.some.injEq, Prod.mk.injEq] at h
      obtain ⟨rfl, rfl⟩ := h
      exact ⟨expectLit_eq he, by decide⟩
    next =>
      cases he : expectLit "var".toList s with
      | none => rw [he] at h; exact absurd h (by simp)
      | some r =>
        rw [he] at h
        simp only [Option.map_some', Option.some.injEq, Prod.mk.injEq] at h
        obtain ⟨rfl, rfl⟩ := h
        exact ⟨expectLit_eq he, by decide⟩

theorem varMatcher_consumes : Consumes varMatcher := by
  intro p s out p2 t h
  simp only [varMatcher] at h
  split at h
  · exact absurd h (by simp)
  split at h
  · exact absurd h (by simp)
  next kw r1 hkw =>
    split at h
    · exact absurd h (by simp)
    next hws =>
      split at h
      · exact absurd h (by simp)
      next n0 r3 heq2 =>
        split at h
        case isFalse => exact absurd h (by simp)
        case isTrue hn0 =>
          split at h
          next r6 heq3 =>
            split at h
            · exact absurd h (by simp)
            next hv =>
              split at h
              next r8 heq4 =>
                simp only [Option.some.injEq, Prod.mk.injEq] at h
                obtain ⟨-, -, rfl⟩ := h
                obtain ⟨hs, hkwlen⟩ := matchKw_eq hkw
                have e0 : s.length = kw.length + r1.length := by
                  rw [hs, List.length_append]
                have e1 : (r1.dropWhile jsSpace).length < r1.length := by
                  apply dropWhile_len_lt
                  simpa using hws
                have e2 : (r1.dropWhile jsSpace).length = r3.length + 1 := by
                  rw [heq2]; rfl
                have e3 : ((r3.dropWhile nameRestChar).dropWhile jsSpace).length
                    ≤ r3.length :=
                  le_trans (dropWhile_len_le _ _) (dropWhile_len_le _ _)
                have e4 : ((r3.dropWhile nameRestChar).dropWhile jsSpace).length
                    = r6.length + 1 := by rw [heq3]; rfl
                have e5 : (r6.dropWhile jsSpace).length ≤ r6.length := dropWhile_len_le _ _
                have e6 : ((r6.dropWhile jsSpace).dropWhile (fun c => !(c = ';'))).length
                    ≤ (r6.dropWhile jsSpace).length := dropWhile_len_le _ _
                have e7 : ((r6.dropWhile jsSpace).dropWhile (fun c => !(c = ';'))).length
                    = r8.length + 1 := by rw [heq4]; rfl
                omega
              next => exact absurd h (by simp)
          next => exact absurd h (by simp)

theorem litNLMatcher_consumes (lit : List Char) (hlit : 0 < lit.length) :
    Consumes (litNLMatcher lit) := by
  intro p s out p2 t h
  simp only [litNLMatcher] at h
  cases he : expectLit lit s with
  | none => rw [he] at h; exact absurd h (by simp)
  | some r =>
    rw [he] at h
    have hr : s.length = lit.length + r.length := by
      rw [expectLit_eq he, List.length_append]
    simp only [Option.map_some', Option.some.injEq] at h
    split at h
    next r2 =>
      obtain ⟨-, -, rfl⟩ := Prod.mk.injEq .. ▸ h
      simp at hr ⊢
      omega
    next =>
      obtain ⟨-, -, rfl⟩ := Prod.mk.injEq .. ▸ h
      omega

theorem d1Matcher_consumes : Consumes d1Matcher :=
  litNLMatcher_consumes _ (by decide)

theorem d2Matcher_consumes : Consumes d2Matcher := by
  intro p s out p2 t h
  simp only [d2Matcher] at h
  obtain ⟨r, he, h⟩ := Option.bind_eq_some.mp h
  have hr : s.length = 16 + r.length := by
    have hl : ("if(_t % 2 === 0)".toList).length = 16 := rfl
    rw [expectLit_eq he, List.length_append, hl]
  split at h
  · exact absurd h (by simp)
  next hbody =>
    split at h
    next r2 heq =>
      have e1 : (r.dropWhile (fun c => !(c = '}'))).length ≤ r.length := dropWhile_len_le _ _
      have e2 : (r.dropWhile (fun c => !(c = '}'))).length = r2.length + 1 := by
        rw [heq]; rfl
      split at h
      next r3 =>
        simp only [Option.some.injEq, Prod.mk.injEq] at h
        obtain ⟨-, -, rfl⟩ := h
        simp at e2
        omega
      next =>
        simp only [Option.some.injEq, Prod.mk.injEq] at h
        obtain ⟨-, -, rfl⟩ := h
        omega
    next => exact absurd h (by simp)

theorem d3Matcher_consumes : Consumes d3Matcher := by
  intro p s out p2 t h
  simp only [d3Matcher] at h
  obtain ⟨r1, he1, h⟩ := Option.bind_eq_some.mp h
  have hr1 : s.length = 3 + r1.length := by
    have hl : ("try".toList).length = 3 := rfl
    rw [expectLit_eq he1, List.length_append, hl]
  split at h
  next r3 heq1 =>
    have e1 : (r1.dropWhile jsSpace).length ≤ r1.length := dropWhile_len_le _ _
    have e2 : (r1.dropWhile jsSpace).length = r3.length + 1 := by rw [heq1]; rfl
    obtain ⟨r5, he5, h⟩ := Option.bind_eq_some.mp h
    have e3 : (r3.dropWhile jsSpace).length = 6 + r5.length := by
      have hl : ("_dummy".toList).length = 6 := rfl
      rw [expectLit_eq he5, List.length_append, hl]
    have e4 : (r3.dropWhile jsSpace).length ≤ r3.length := dropWhile_len_le _ _
    split at h
    · exact absurd h (by simp)
    next hds =>
      obtain ⟨r7, he7, h⟩ := Option.bind_eq_some.mp h
      have e5 : (r5.dropWhile jsDigit).length = 3 + r7.length := by
        have hl : ("();".toList).length = 3 := rfl
        rw [expectLit_eq he7, List.length_append, hl]
      have e6 : (r5.dropWhile jsDigit).length ≤ r5.length := dropWhile_len_le _ _
      split at h
      next r9 heq2 =>
        have e7 : (r7.dropWhile jsSpace).length ≤ r7.length := dropWhile_len_le _ _
        have e8 : (r7.dropWhile jsSpace).length = r9.length + 1 := by rw [heq2]; rfl
        obtain ⟨r11, he11, h⟩ := Option.bind_eq_some.mp h
        have e9 : (r9.dropWhile jsSpace).length = 8 + r11.length := by
          have hl : ("catch(e)".toList).length = 8 := rfl
          rw [expectLit_eq he11, List.length_append, hl]
        have e10 : (r9.dropWhile jsSpace).length ≤ r9.length := dropWhile_len_le _ _
        split at h
        next r13 heq3 =>
          have e11 : (r11.dropWhile jsSpace).length ≤ r11.length := dropWhile_len_le _ _
          have e12 : (r11.dropWhile jsSpace).length = r13.length + 1 := by rw [heq3]; rfl
          split at h
          · exact absurd h (by simp)
          next hbody =>
            split at h
            next r14 heq4 =>
              have e13 : (r13.dropWhile (fun c => !(c = '}'))).length ≤ r13.length :=
                dropWhile_len_le _ _
              have e14 : (r13.dropWhile (fun c => !(c = '}'))).length = r14.length + 1 := by
                rw [heq4]; rfl
              split at h
              next r15 =>
                simp only [Option.some.injEq, Prod.mk.injEq] at h
                obtain ⟨-, -, rfl⟩ := h
                simp at e14
                omega
              next =>
                simp only [Option.some.injEq, Prod.mk.injEq] at h
                obtain ⟨-, -, rfl⟩ := h
                omega
            next => exact absurd h (by simp)
        next => exact absurd h (by simp)
      next => exact absurd h (by simp)
  next => exact absurd h (by simp)

theorem wrapTail_len {s r : List Char} (h : wrapTail s = some r) : r.length ≤ s.length := by
  simp only [wrapTail] at h
  split at h
  next r1 heq1 =>
    have e1 : (s.dropWhile jsSpace).length ≤ s.length := dropWhile_len_le _ _
    have e2 : (s.dropWhile jsSpace).length = r1.length + 1 := by rw [heq1]; rfl
    split at h
    next r2 heq2 =>
      have e3 : (r1.dropWhile jsSpace).length ≤ r1.length := dropWhile_len_le _ _
      have e4 : (r1.dropWhile jsSpace).length = r2.length + 1 := by rw [heq2]; rfl
      split at h
      next r3 heq3 =>
        have e5 : (r2.dropWhile jsSpace).length ≤ r2.length := dropWhile_len_le _ _
        have e6 : (r2.dropWhile jsSpace).length = r3.length + 1 := by rw [heq3]; rfl
        split at h
        next r5 heq4 =>
          have e7 : (r3.dropWhile jsSpace).length ≤ r3.length := dropWhile_len_le _ _
          have e8 : (r3.dropWhile jsSpace).length = r5.length + 2 := by rw [heq4]; rfl
          obtain rfl := Option.some.inj h
          omega
        next => exact absurd h (by simp)
      next => exact absurd h (by simp)
    next => exact absurd h (by simp)
  next => exact absurd h (by simp)

theorem wrapLazy_len {s g rest : List Char} (h : wrapLazy s = some (g, rest)) :
    rest.length ≤ s.length := by
  induction s generalizing g with
  | nil => exact absurd h (by simp [wrapLazy])
  | cons c cs ih =>
    simp only [wrapLazy] at h
    split at h
    next r heq =>
      simp only [Option.some.injEq, Prod.mk.injEq] at h
      obtain ⟨-, rfl⟩ := h
      exact wrapTail_len heq
    next =>
      split at h
      · exact absurd h (by simp)
      next =>
        cases hw : wrapLazy cs with
        | none => rw [hw] at h; exact absurd h (by simp)
        | some q =>
          obtain ⟨g', rest'⟩ := q
          rw [hw] at h
          simp only [Option.map_some', Option.some.injEq, Prod.mk.injEq] at h
          obtain ⟨-, rfl⟩ := h
          have := ih hw
          simp
          omega

theorem wrapMatcher_consumes : Consumes wrapMatcher := by
  intro p s out p2 t h
  simp only [wrapMatcher] at h
  split at h
  next cs =>
    cases hw : wrapLazy cs with
    | none => rw [hw] at h; exact absurd h (by simp)
    | some q =>
      obtain ⟨g, rest⟩ := q
      rw [hw] at h
      simp only [Option.map_some', Option.some.injEq, Prod.mk.injEq] at h
      obtain ⟨-, -, rfl⟩ := h
      have := wrapLazy_len hw
      simp
      omega
  next => exact absurd h (by simp)

/-! ### Substring triggers: when a pass cannot fire -/

/-- Whether `pat` occurs as a contiguous subsequence of `s`. -/
def hasSeq (pat : List Char) : List Char → Bool
  | [] => pat.isPrefixOf ([] : List Char)
  | s@(_ :: rest) => pat.isPrefixOf s || hasSeq pat rest

theorem hasSeq_false_drop {pat s : List Char} (h : hasSeq pat s = false) (n : Nat) :
    pat.isPrefixOf (s.drop n) = false := by
  induction s generalizing n with
  | nil => simpa [hasSeq] using h
  | cons c cs ih =>
    have h' := h
    simp only [hasSeq, Bool.or_eq_false_iff] at h'
    cases n with
    | zero => exact h'.1
    | succ k => exact ih h'.2 k

theorem expectLit_isPrefixOf {lit s r : List Char} (h : expectLit lit s = some r) :
    lit.isPrefixOf s = true := by
  unfold expectLit at h
  split at h
  next hp => exact hp
  next => exact absurd h (by simp)

theorem junkMatcher_none {p : Option Char} {s : List Char}
    (h : ("function".toList).isPrefixOf s = false) : junkMatcher p s = none := by
  cases hj : junkMatcher p s with
  | none => rfl
  | some v =>
    exfalso
    simp only [junkMatcher] at hj
    split at hj
    · exact absurd hj (by simp)
    obtain ⟨r1, he1, -⟩ := Option.bind_eq_some.mp hj
    rw [expectLit_isPrefixOf he1] at h
    exact Bool.noConfusion h

theorem d1Matcher_none {p : Option Char} {s : List Char}
    (h : ("const _t = performance.now();".toList).isPrefixOf s = false) :
    d1Matcher p s = none := by
  cases hj : d1Matcher p s with
  | none => rfl
  | some v =>
    exfalso
    simp only [d1Matcher, litNLMatcher] at hj
    obtain ⟨r, he, -⟩ := Option.map_eq_some'.mp hj
    rw [expectLit_isPrefixOf he] at h
    exact Bool.noConfusion h

theorem d2Matcher_none {p : Option Char} {s : List Char}
    (h : ("if(_t % 2 === 0)".toList).isPrefixOf s = false) : d2Matcher p s = none := by
  cases hj : d2Matcher p s with
  | none => rfl
  | some v =>
    exfalso
    simp only [d2Matcher] at hj
    obtain ⟨r, he, -⟩ := Option.bind_eq_some.mp hj
    rw [expectLit_isPrefixOf he] at h
    exact Bool.noConfusion h

theorem d3Matcher_none {p : Option Char} {s : List Char}
    (h : ("try".toList).isPrefixOf s = false) : d3Matcher p s = none := by
  cases hj : d3Matcher p s with
  | none => rfl
  | some v =>
    exfalso
    simp only [d3Matcher] at hj
    obtain ⟨r, he, -⟩ := Option.bind_eq_some.mp hj
    rw [expectLit_isPrefixOf he] at h
    exact Bool.noConfusion h

theorem wrapMatcher_none {p : Option Char} {s : List Char} (h : '(' ∉ s) :
    wrapMatcher p s = none := by
  cases s with
  | nil => rfl
  | cons c cs =>
    have hc : c ≠ '\x28' := fun e => h (e ▸ List.mem_cons_self c cs)
    simp only [wrapMatcher]
    split
    next cs2 heq => exact absurd (List.cons.inj heq).1 hc
    next => rfl

/-- Claim C3 evidence: the operand class of `encodeArithmetic` is the literal
characters `w` and `.` (the regexes use `[w.]`, not `[\w.]`), so a general
variable such as `x` is never rewritten, while a variable named `w` is; on
`w`-operands the three rewrites produce exactly the shapes the spec names. -/
theorem claim3_encode_arithmetic :
    encodeArithmetic "x + 1" = "x + 1" ∧
    encodeArithmetic "y - 2" = "y - 2" ∧
    encodeArithmetic "w + 1" = "(w - (-1))" ∧
    encodeArithmetic "w - 1" = "(w + (-1))" ∧
    encodeArithmetic "w * 8" = "((w << 3) + w * 0)" := by
  refine ⟨by decide, by decide, by decide, by decide, by decide⟩

/-- Claim C7 counterexample: one removal pass over a nested wrapper leaves a
strippable wrapper behind, so stripping twice is not a no-op. -/
theorem claim7_counterexample :
    removeObfuscation (removeObfuscation "((a * 1 + 0) * 1 + 0)")
      ≠ removeObfuscation "((a * 1 + 0) * 1 + 0)" := by
  decide

/-- Claim C7, amended: the removal pass is idempotent on every input whose
first removal output retains no strippable pattern — no junk-function or
dummy-statement trigger substring and no parenthesis (so no wrapper) — which
the nested-wrapper counterexample shows is not the case in general. -/
theorem claim7_removal_idempotent_conditional (X : String)
    (h1 : hasSeq ("function".toList) (removeObfuscation X).toList = false)
    (h2 : hasSeq ("const _t = performance.now();".toList) (removeObfuscation X).toList = false)
    (h3 : hasSeq ("if(_t % 2 === 0)".toList) (removeObfuscation X).toList = false)
    (h4 : hasSeq ("try".toList) (removeObfuscation X).toList = false)
    (h5 : '(' ∉ (removeObfuscation X).toList) :
    removeObfuscation (removeObfuscation X) = removeObfuscation X := by
  set Y := (removeObfuscation X).toList with hY
  have hj : runScanP junkMatcher Y = Y :=
    runScanP_id Y (fun p n => junkMatcher_none (hasSeq_false_drop h1 n))
  have hd1 : runScanP d1Matcher Y = Y :=
    runScanP_id Y (fun p n => d1Matcher_none (hasSeq_false_drop h2 n))
  have hd2 : runScanP d2Matcher Y = Y :=
    runScanP_id Y (fun p n => d2Matcher_none (hasSeq_false_drop h3 n))
  have hd3 : runScanP d3Matcher Y = Y :=
    runScanP_id Y (fun p n => d3Matcher_none (hasSeq_false_drop h4 n))
  have hw : runScanP wrapMatcher Y = Y :=
    runScanP_id Y (fun p n => wrapMatcher_none (fun hm => h5 (List.mem_of_mem_drop hm)))
  show removeObfuscation (removeObfuscation X) = removeObfuscation X
  conv_lhs => rw [removeObfuscation]
  rw [← hY, hj, hd1, hd2, hd3, hw]
  exact string_mk_toList _

theorem claim7_removal_idempotent_conditional_witness :
    removeObfuscation (removeObfuscation "keep (b * 1 + 0) end")
      = removeObfuscation "keep (b * 1 + 0) end" :=
  claim7_removal_idempotent_conditional "keep (b * 1 + 0) end"
    (by decide) (by decide) (by decide) (by decide) (by decide)

/-- Claim C6 counterexample: an input with no declaration statements at all
(so the wrapped-statement grammar condition holds vacuously) already contains
a strippable wrapper pattern, and the removal pass destroys it even though
the wrapping pass never touched it. -/
theorem claim6_counterexample :
    removeObfuscation (applyVariableHiding "(b * 1 + 0)") ≠ "(b * 1 + 0)" := by
  decide

/-! ### The canonical declaration grammar for the variable-wrap round trip -/

/-- One `declare NAME = VALUE;` statement in canonical single-space form. -/
structure Stmt where
  kw : List Char
  name : List Char
  value : List Char

/-- Side conditions under which wrapping then removal is exact: a real
keyword, a nonempty identifier without underscores, and a nonempty value
containing none of `; ( ) * { } _` or line breaks, not starting or ending
with whitespace. -/
def stmtOKb (st : Stmt) : Bool :=
  (st.kw == "let".toList || st.kw == "const".toList || st.kw == "var".toList) &&
  (match st.name with
   | [] => false
   | n0 :: nrest => nameStart n0 && nrest.all nameRestChar) &&
  st.name.all (fun c => !(c = '_')) &&
  !st.value.isEmpty &&
  st.value.all (fun c => !(c = ';') && !(c = '(') && !(c = ')') && !(c = '*') &&
    !(c = '{') && !(c = '}') && !(c = '_') && !(c = '\n') && !(c = '\r')) &&
  !jsSpace (st.value.headD 'x') && !jsSpace (st.value.getLastD 'x')

def renderStmt (st : Stmt) : List Char :=
  st.kw ++ ' ' :: st.name ++ " = ".toList ++ st.value ++ ";".toList

def renderHidden (st : Stmt) : List Char :=
  st.kw ++ ' ' :: st.name ++ " = (".toList ++ st.value ++ " * 1 + 0);".toList

/-- A newline-separated (newline-terminated) sequence of statements. -/
def renderProg (sts : List Stmt) : List Char :=
  (sts.map (fun st => renderStmt st ++ ['\n'])).flatten

def hiddenProg (sts : List Stmt) : List Char :=
  (sts.map (fun st => renderHidden st ++ ['\n'])).flatten

theorem nameStart_not_space {c : Char} (h : nameStart c = true) : jsSpace c = false := by
  by_cases hc : jsSpace c = true
  · simp only [jsSpace, Bool.or_eq_true, decide_eq_true_eq] at hc
    rcases hc with ((((rfl | rfl) | rfl) | rfl) | rfl) | rfl <;> exact absurd h (by decide)
  · simpa using hc

theorem nameRestChar_not_space {c : Char} (h : nameRestChar c = true) : jsSpace c = false := by
  by_cases hc : jsSpace c = true
  · simp only [jsSpace, Bool.or_eq_true, decide_eq_true_eq] at hc
    rcases hc with ((((rfl | rfl) | rfl) | rfl) | rfl) | rfl <;> exact absurd h (by decide)
  · simpa using hc

theorem nameStart_ne_paren {c : Char} (h : nameStart c = true) : c ≠ '\x28' := by
  intro he
  rw [he] at h
  exact absurd h (by decide)

theorem nameRestChar_ne_paren {c : Char} (h : nameRestChar c = true) : c ≠ '\x28' := by
  intro he
  rw [he] at h
  exact absurd h (by decide)

theorem expectLit_self (lit rest : List Char) : expectLit lit (lit ++ rest) = some rest := by
  unfold expectLit
  rw [if_pos (List.isPrefixOf_iff_prefix.mpr ⟨rest, rfl⟩), List.drop_left]

theorem matchKw_render {kw : List Char} (rest : List Char)
    (h : kw = "let".toList ∨ kw = "const".toList ∨ kw = "var".toList) :
    matchKw (kw ++ rest) = some (kw, rest) := by
  rcases h with rfl | rfl | rfl <;>
    simp [matchKw, expectLit, List.isPrefixOf]

theorem varMatcher_newline (p : Option Char) (t : List Char) :
    varMatcher p ('\n' :: t) = none := by
  have h1 : matchKw ('\n' :: t) = none := by
    simp [matchKw, expectLit, List.isPrefixOf]
  simp [varMatcher, h1]

theorem stmtOKb_decomp {st : Stmt} (h : stmtOKb st = true) :
    (st.kw = "let".toList ∨ st.kw = "const".toList ∨ st.kw = "var".toList) ∧
    (∃ n0 nrest, st.name = n0 :: nrest ∧ nameStart n0 = true ∧
      (∀ c ∈ nrest, nameRestChar c = true)) ∧
    (∀ c ∈ st.name, ¬c = '_') ∧
    st.value ≠ [] ∧
    (∀ c ∈ st.value, ¬c = ';' ∧ ¬c = '(' ∧ ¬c = ')' ∧ ¬c = '*' ∧ ¬c = '{' ∧ ¬c = '}' ∧
      ¬c = '_' ∧ ¬c = '\n' ∧ ¬c = '\r') ∧
    jsSpace (st.value.headD 'x') = false ∧
    jsSpace (st.value.getLastD 'x') = false := by
  obtain ⟨kw, name, value⟩ := st
  rw [stmtOKb] at h
  simp only [Bool.and_eq_true] at h
  obtain ⟨⟨⟨⟨⟨⟨hkw, hnm⟩, hna⟩, hvne⟩, hva⟩, hvh⟩, hvl⟩ := h
  refine ⟨?_, ?_, ?_, ?_, ?_, ?_, ?_⟩
  · have hkw2 : (kw = "let".toList ∨ kw = "const".toList) ∨ kw = "var".toList := by
      simpa using hkw
    tauto
  · cases name with
    | nil => exact absurd hnm (by simp)
    | cons n0 nrest =>
      have hnm2 : (nameStart n0 && List.all nrest nameRestChar) = true := hnm
      rw [Bool.and_eq_true] at hnm2
      exact ⟨n0, nrest, rfl, hnm2.1, by simpa using hnm2.2⟩
  · simpa using hna
  · simpa using hvne
  · intro c hc
    have hc2 := List.all_eq_true.mp hva c hc
    simp only [Bool.and_eq_true] at hc2
    obtain ⟨⟨⟨⟨⟨⟨⟨⟨h1, h2⟩, h3⟩, h4⟩, h5⟩, h6⟩, h7⟩, h8⟩, h9⟩ := hc2
    exact ⟨by simpa using h1, by simpa using h2, by simpa using h3, by simpa using h4,
      by simpa using h5, by simpa using h6, by simpa using h7, by simpa using h8,
      by simpa using h9⟩
  · simpa using hvh
  · simpa using hvl

theorem varMatcher_stmt (st : Stmt) (tail : List Char) (prev : Option Char)
    (hOK : stmtOKb st = true) (hprev : prevIsWord prev = false) :
    varMatcher prev (renderStmt st ++ tail) = some (renderHidden st, some ';', tail) := by
  obtain ⟨hkw, ⟨n0, nrest, hname, hn0, hnr⟩, hna, hvne, hva, hvh, hvl⟩ := stmtOKb_decomp hOK
  obtain ⟨kw, name, value⟩ := st
  simp only at hname hkw hna hvne hva hvh hvl
  subst hname
  obtain ⟨v0, vrest, hval⟩ : ∃ v0 vrest, value = v0 :: vrest := by
    cases value with
    | nil => exact absurd rfl hvne
    | cons v0 vrest => exact ⟨v0, vrest, rfl⟩
  subst hval
  have hshape : renderStmt ⟨kw, n0 :: nrest, v0 :: vrest⟩ ++ tail
      = kw ++ (' ' :: n0 :: (nrest ++ (' ' :: '=' :: ' ' :: (v0 :: (vrest ++ (';' :: tail))))))
      := by
    simp [renderStmt]
  rw [hshape]
  have hv0 : jsSpace v0 = false := by simpa using hvh
  have hvsemi : ∀ c ∈ v0 :: vrest, (!(c = ';' : Bool)) = true := by
    intro c hc
    have := hva c hc
    simp [this.1]
  have e1 : List.takeWhile jsSpace
      (' ' :: n0 :: (nrest ++ (' ' :: '=' :: ' ' :: (v0 :: (vrest ++ (';' :: tail))))))
      = ' ' :: List.takeWhile jsSpace
        (n0 :: (nrest ++ (' ' :: '=' :: ' ' :: (v0 :: (vrest ++ (';' :: tail)))))) :=
    List.takeWhile_cons_of_pos (by decide)
  have e2 : List.dropWhile jsSpace
      (' ' :: n0 :: (nrest ++ (' ' :: '=' :: ' ' :: (v0 :: (vrest ++ (';' :: tail))))))
      = n0 :: (nrest ++ (' ' :: '=' :: ' ' :: (v0 :: (vrest ++ (';' :: tail))))) := by
    rw [List.dropWhile_cons_of_pos (by decide)]
    exact List.dropWhile_cons_of_neg (by simp [nameStart_not_space hn0])
  have e3 : List.takeWhile nameRestChar
      (nrest ++ (' ' :: '=' :: ' ' :: (v0 :: (vrest ++ (';' :: tail))))) = nrest := by
    rw [List.takeWhile_append_of_pos hnr, List.takeWhile_cons_of_neg (by decide)]
    simp
  have e4 : List.dropWhile nameRestChar
      (nrest ++ (' ' :: '=' :: ' ' :: (v0 :: (vrest ++ (';' :: tail)))))
      = ' ' :: '=' :: ' ' :: (v0 :: (vrest ++ (';' :: tail))) := by
    rw [List.dropWhile_append_of_pos hnr]
    exact List.dropWhile_cons_of_neg (by decide)
  have e5 : List.dropWhile jsSpace (' ' :: '=' :: ' ' :: (v0 :: (vrest ++ (';' :: tail))))
      = '=' :: ' ' :: (v0 :: (vrest ++ (';' :: tail))) := by
    rw [List.dropWhile_cons_of_pos (by decide)]
    exact List.dropWhile_cons_of_neg (by decide)
  have e6 : List.dropWhile jsSpace (' ' :: (v0 :: (vrest ++ (';' :: tail))))
      = v0 :: (vrest ++ (';' :: tail)) := by
    rw [List.dropWhile_cons_of_pos (by decide)]
    exact List.dropWhile_cons_of_neg (by simp [hv0])
  have e7 : List.takeWhile (fun c => !(c = ';' : Bool)) (v0 :: (vrest ++ (';' :: tail)))
      = v0 :: vrest := by
    have : v0 :: (vrest ++ (';' :: tail)) = (v0 :: vrest) ++ (';' :: tail) := by simp
    rw [this, List.takeWhile_append_of_pos hvsemi]
    simp [List.takeWhile_cons_of_neg]
  have e8 : List.dropWhile (fun c => !(c = ';' : Bool)) (v0 :: (vrest ++ (';' :: tail)))
      = ';' :: tail := by
    have : v0 :: (vrest ++ (';' :: tail)) = (v0 :: vrest) ++ (';' :: tail) := by simp
    rw [this, List.dropWhile_append_of_pos hvsemi]
    exact List.dropWhile_cons_of_neg (by decide)
  simp only [varMatcher, hprev, Bool.false_eq_true, if_false,
    matchKw_render _ hkw, e1, e2, e3, e4, e5, e6, e7, e8]
  rw [if_pos hn0]
  simp [renderHidden]

theorem getLastD_mem {v : List Char} (hv : v ≠ []) (d : Char) : v.getLastD d ∈ v := by
  rw [List.getLastD_eq_getLast?, List.getLast?_eq_getLast v hv, Option.getD_some]
  exact List.getLast_mem hv

theorem dropWhile_ne_nil_of_getLastD {p : Char → Bool} {v : List Char} (hv : v ≠ [])
    (h : p (v.getLastD 'x') = false) : v.dropWhile p ≠ [] := by
  intro h0
  have hall := List.dropWhile_eq_nil_iff.mp h0
  exact absurd (hall _ (getLastD_mem hv 'x')) (by simp only [h]; simp)

theorem nameStart_ne_underscore2 {c : Char} (h : nameStart c = true) : c ≠ '\x7b' := by
  intro he
  rw [he] at h
  exact absurd h (by decide)

theorem nameRestChar_ne_brace {c : Char} (h : nameRestChar c = true) : c ≠ '\x7b' := by
  intro he
  rw [he] at h
  exact absurd h (by decide)

theorem junkMatcher_no_underscore {p : Option Char} {s : List Char} (h : '_' ∉ s) :
    junkMatcher p s = none := by
  cases hj : junkMatcher p s with
  | none => rfl
  | some v =>
    exfalso
    simp only [junkMatcher] at hj
    split at hj
    · exact absurd hj (by simp)
    obtain ⟨r1, he1, hj2⟩ := Option.bind_eq_some.mp hj
    split at hj2
    · exact absurd hj2 (by simp)
    obtain ⟨r3, he3, -⟩ := Option.bind_eq_some.mp hj2
    have hpre := List.isPrefixOf_iff_prefix.mp (expectLit_isPrefixOf he3)
    have hm1 : '_' ∈ (r1.dropWhile jsSpace) := hpre.subset (by decide)
    have hm2 : '_' ∈ r1 := (List.dropWhile_sublist _).subset hm1
    exact h (by rw [expectLit_eq he1]; exact List.mem_append_right _ hm2)

theorem d1Matcher_no_underscore {p : Option Char} {s : List Char} (h : '_' ∉ s) :
    d1Matcher p s = none := by
  apply d1Matcher_none
  by_cases hb : ("const _t = performance.now();".toList).isPrefixOf s = true
  · exact absurd ((List.isPrefixOf_iff_prefix.mp hb).subset (by decide)) h
  · simp only [Bool.not_eq_true] at hb
    exact hb

theorem d2Matcher_no_underscore {p : Option Char} {s : List Char} (h : '_' ∉ s) :
    d2Matcher p s = none := by
  apply d2Matcher_none
  by_cases hb : ("if(_t % 2 === 0)".toList).isPrefixOf s = true
  · exact absurd ((List.isPrefixOf_iff_prefix.mp hb).subset (by decide)) h
  · simp only [Bool.not_eq_true] at hb
    exact hb

theorem d3Matcher_no_brace {p : Option Char} {s : List Char} (h : '\x7b' ∉ s) :
    d3Matcher p s = none := by
  cases hj : d3Matcher p s with
  | none => rfl
  | some v =>
    exfalso
    simp only [d3Matcher] at hj
    obtain ⟨r1, he1, hj2⟩ := Option.bind_eq_some.mp hj
    split at hj2
    next r3 heq =>
      have hm1 : '\x7b' ∈ r1.dropWhile jsSpace := by
        rw [heq]; exact List.mem_cons_self _ _
      have hm2 : '\x7b' ∈ r1 := (List.dropWhile_sublist _).subset hm1
      exact h (by rw [expectLit_eq he1]; exact List.mem_append_right _ hm2)
    next => exact absurd hj2 (by simp)

theorem wrapTail_marker (t : List Char) :
    wrapTail (' ' :: '*' :: ' ' :: '1' :: ' ' :: '+' :: ' ' :: '0' :: ')' :: t) = some t := rfl

theorem wrapTail_fail {v : List Char} (rest : List Char) (hv : v ≠ [])
    (hstar : '*' ∉ v) (hlast : jsSpace (v.getLastD 'x') = false) :
    wrapTail (v ++ rest) = none := by
  have hne := dropWhile_ne_nil_of_getLastD hv hlast
  obtain ⟨d0, ds, hds⟩ := List.exists_cons_of_ne_nil hne
  have hd0v : d0 ∈ v := (List.dropWhile_sublist _).subset (by rw [hds]; exact List.mem_cons_self _ _)
  have hd0 : d0 ≠ '*' := fun e => hstar (e ▸ hd0v)
  have happ : (v ++ rest).dropWhile jsSpace = d0 :: (ds ++ rest) := by
    rw [List.dropWhile_append, hds]
    simp
  unfold wrapTail
  rw [happ]
  split
  next r1 heq => exact absurd (List.cons.inj heq).1 hd0
  next => rfl

theorem wrapLazy_exact {v : List Char} (t : List Char)
    (hva : ∀ c ∈ v, ¬c = '*' ∧ ¬c = '\n' ∧ ¬c = '\r')
    (hlast : v = [] ∨ jsSpace (v.getLastD 'x') = false) :
    wrapLazy (v ++ (' ' :: '*' :: ' ' :: '1' :: ' ' :: '+' :: ' ' :: '0' :: ')' :: t))
      = some (v, t) := by
  induction v with
  | nil =>
    simp only [List.nil_append]
    simp only [wrapLazy, wrapTail_marker]
  | cons c cs ih =>
    have hlast2 : jsSpace ((c :: cs).getLastD 'x') = false := by
      rcases hlast with h | h
      · exact absurd h (by simp)
      · exact h
    have hstar : '*' ∉ c :: cs := fun hm => (hva _ hm).1 rfl
    have htail : wrapTail (c :: (cs ++ (' ' :: '*' :: ' ' :: '1' :: ' ' :: '+' :: ' ' ::
        '0' :: ')' :: t))) = none :=
      wrapTail_fail _ (by simp) hstar hlast2
    have hc1 : ¬c = '\n' := (hva c (by simp)).2.1
    have hc2 : ¬c = '\r' := (hva c (by simp)).2.2
    have hcs : wrapLazy (cs ++ (' ' :: '*' :: ' ' :: '1' :: ' ' :: '+' :: ' ' ::
        '0' :: ')' :: t)) = some (cs, t) := by
      apply ih (fun d hd => hva d (by simp [hd]))
      cases cs with
      | nil => exact Or.inl rfl
      | cons b l =>
        right
        have : (c :: b :: l).getLastD 'x' = (b :: l).getLastD 'x' := by
          simp only [List.getLastD_cons]
        rw [← this]
        exact hlast2
    show wrapLazy (c :: (cs ++ _)) = _
    simp only [wrapLazy, htail]
    rw [if_neg (by simp [hc1, hc2]), hcs]
    rfl

theorem scanFuelP_prev_irrel {matcher : Matcher}
    (hm : ∀ p q s, matcher p s = matcher q s) :
    ∀ (fuel : Nat) (p q : Option Char) (s : List Char),
      scanFuelP matcher fuel p s = scanFuelP matcher fuel q s := by
  intro fuel
  induction fuel with
  | zero => intro p q s; rfl
  | succ f ih =>
    intro p q s
    cases s with
    | nil => rfl
    | cons c cs =>
      simp only [scanFuelP]
      rw [hm p q (c :: cs)]

theorem scanP_prev_irrel {matcher : Matcher}
    (hm : ∀ p q s, matcher p s = matcher q s) (p q : Option Char) (s : List Char) :
    scanP matcher p s = scanP matcher q s :=
  scanFuelP_prev_irrel hm s.length p q s

theorem wrapMatcher_prev (p q : Option Char) (s : List Char) :
    wrapMatcher p s = wrapMatcher q s := rfl

theorem wrapMatcher_not_paren {c : Char} (p : Option Char) (t : List Char) (hc : c ≠ '(') :
    wrapMatcher p (c :: t) = none := by
  simp only [wrapMatcher]
  split
  next cs heq => exact absurd (List.cons.inj heq).1 hc
  next => rfl

theorem scanP_wrap_walk (pre : List Char) (hpre : ∀ c ∈ pre, c ≠ '(')
    (prev : Option Char) (s : List Char) :
    scanP wrapMatcher prev (pre ++ s) = pre ++ scanP wrapMatcher none s := by
  induction pre generalizing prev with
  | nil =>
    simp only [List.nil_append]
    exact scanP_prev_irrel wrapMatcher_prev prev none s
  | cons c pre2 ih =>
    have hskip : wrapMatcher prev (c :: (pre2 ++ s)) = none :=
      wrapMatcher_not_paren _ _ (hpre c (by simp))
    rw [List.cons_append, scanP_skip hskip, ih (fun d hd => hpre d (by simp [hd])) (some c)]
    rfl

theorem scanP_match2 {matcher : Matcher} (hcons : Consumes matcher)
    {prev : Option Char} {s out : List Char} {p2 : Option Char} {t : List Char}
    (h : matcher prev s = some (out, p2, t)) :
    scanP matcher prev s = out ++ scanP matcher p2 t := by
  cases s with
  | nil => exact absurd (hcons _ _ _ _ _ h) (by simp)
  | cons c cs => exact scanP_match hcons h

theorem renderProg_cons (st : Stmt) (rest : List Stmt) :
    renderProg (st :: rest) = renderStmt st ++ ('\n' :: renderProg rest) := by
  simp [renderProg]

theorem hiddenProg_cons (st : Stmt) (rest : List Stmt) :
    hiddenProg (st :: rest) = renderHidden st ++ ('\n' :: hiddenProg rest) := by
  simp [hiddenProg]

theorem scanP_hide : ∀ (sts : List Stmt) (prev : Option Char),
    (∀ st ∈ sts, stmtOKb st = true) → prevIsWord prev = false →
    scanP varMatcher prev (renderProg sts) = hiddenProg sts := by
  intro sts
  induction sts with
  | nil => intro prev _ _; rfl
  | cons st rest ih =>
    intro prev hOK hprev
    rw [renderProg_cons,
      scanP_match2 varMatcher_consumes (varMatcher_stmt st _ prev (hOK st (by simp)) hprev),
      scanP_skip (varMatcher_newline _ _),
      ih (some '\n') (fun s hs => hOK s (by simp [hs])) (by decide),
      hiddenProg_cons]

theorem renderHidden_chars {st : Stmt} (hOK : stmtOKb st = true) :
    ∀ c ∈ renderHidden st, c ≠ '_' ∧ c ≠ '\x7b' := by
  obtain ⟨hkw, ⟨n0, nrest, hname, hn0, hnr⟩, hna, hvne, hva, hvh, hvl⟩ := stmtOKb_decomp hOK
  intro c hc
  have hsh : renderHidden st
      = st.kw ++ (' ' :: (st.name ++ ([' ', '=', ' ', '('] ++ (st.value ++
          [' ', '*', ' ', '1', ' ', '+', ' ', '0', ')', ';'])))) := by
    simp [renderHidden]
  rw [hsh] at hc
  rcases List.mem_append.mp hc with hk | hc
  · rcases hkw with h | h | h
    · have hall : ∀ x ∈ "let".toList, x ≠ '_' ∧ x ≠ '\x7b' := by decide
      exact hall c (h ▸ hk)
    · have hall : ∀ x ∈ "const".toList, x ≠ '_' ∧ x ≠ '\x7b' := by decide
      exact hall c (h ▸ hk)
    · have hall : ∀ x ∈ "var".toList, x ≠ '_' ∧ x ≠ '\x7b' := by decide
      exact hall c (h ▸ hk)
  rcases List.mem_cons.mp hc with rfl | hc
  · exact ⟨by decide, by decide⟩
  rcases List.mem_append.mp hc with hn | hc
  · have hu : c ≠ '_' := fun e => hna c hn e
    rw [hname] at hn
    rcases List.mem_cons.mp hn with rfl | hn
    · exact ⟨hu, nameStart_ne_underscore2 hn0⟩
    · exact ⟨hu, nameRestChar_ne_brace (hnr c hn)⟩
  rcases List.mem_append.mp hc with hl | hc
  · have hall : ∀ x ∈ [' ', '=', ' ', '('], x ≠ '_' ∧ x ≠ '\x7b' := by decide
    exact hall c hl
  rcases List.mem_append.mp hc with hv | hl
  · exact ⟨(hva c hv).2.2.2.2.2.2.1, (hva c hv).2.2.2.2.1⟩
  · have hall : ∀ x ∈ [' ', '*', ' ', '1', ' ', '+', ' ', '0', ')', ';'],
        x ≠ '_' ∧ x ≠ '\x7b' := by decide
    exact hall c hl

theorem hiddenProg_chars {sts : List Stmt} (hOK : ∀ st ∈ sts, stmtOKb st = true)
    {c : Char} (hc : c ∈ hiddenProg sts) : c ≠ '_' ∧ c ≠ '\x7b' := by
  induction sts with
  | nil => exact absurd hc (by simp [hiddenProg])
  | cons st rest ih =>
    rw [hiddenProg_cons] at hc
    rcases List.mem_append.mp hc with hc1 | hc2
    · exact renderHidden_chars (hOK st (by simp)) c hc1
    · rcases List.mem_cons.mp hc2 with rfl | hc3
      · exact ⟨by decide, by decide⟩
      · exact ih (fun s hs => hOK s (by simp [hs])) hc3

theorem scanP_unwrap : ∀ (sts : List Stmt) (prev : Option Char),
    (∀ st ∈ sts, stmtOKb st = true) →
    scanP wrapMatcher prev (hiddenProg sts) = renderProg sts := by
  intro sts
  induction sts with
  | nil => intro prev _; rfl
  | cons st rest ih =>
    intro prev hOK
    obtain ⟨hkw, ⟨n0, nrest, hname, hn0, hnr⟩, hna, hvne, hva, hvh, hvl⟩ :=
      stmtOKb_decomp (hOK st (by simp))
    have hpre : ∀ c ∈ st.kw ++ (' ' :: (st.name ++ [' ', '=', ' '])), c ≠ '\x28' := by
      intro c hc
      rcases List.mem_append.mp hc with hk | hc
      · rcases hkw with h | h | h
        · have hall : ∀ x ∈ "let".toList, x ≠ '\x28' := by decide
          exact hall c (h ▸ hk)
        · have hall : ∀ x ∈ "const".toList, x ≠ '\x28' := by decide
          exact hall c (h ▸ hk)
        · have hall : ∀ x ∈ "var".toList, x ≠ '\x28' := by decide
          exact hall c (h ▸ hk)
      rcases List.mem_cons.mp hc with rfl | hc
      · decide
      rcases List.mem_append.mp hc with hn | hl
      · rw [hname] at hn
        rcases List.mem_cons.mp hn with rfl | hn
        · exact nameStart_ne_paren hn0
        · exact nameRestChar_ne_paren (hnr c hn)
      · have hall : ∀ x ∈ [' ', '=', ' '], x ≠ '\x28' := by decide
        exact hall c hl
    have hshape : hiddenProg (st :: rest)
        = (st.kw ++ (' ' :: (st.name ++ [' ', '=', ' ']))) ++ '(' :: (st.value ++
          (' ' :: '*' :: ' ' :: '1' :: ' ' :: '+' :: ' ' :: '0' :: ')' ::
            (';' :: '\n' :: hiddenProg rest))) := by
      rw [hiddenProg_cons]
      simp [renderHidden]
    have hva2 : ∀ c ∈ st.value, ¬c = '*' ∧ ¬c = '\n' ∧ ¬c = '\r' := fun c hc =>
      ⟨(hva c hc).2.2.2.1, (hva c hc).2.2.2.2.2.2.2.1, (hva c hc).2.2.2.2.2.2.2.2⟩
    have hlazy := wrapLazy_exact (';' :: '\n' :: hiddenProg rest) hva2 (Or.inr hvl)
    have hmw : wrapMatcher none ('(' :: (st.value ++
        (' ' :: '*' :: ' ' :: '1' :: ' ' :: '+' :: ' ' :: '0' :: ')' ::
          (';' :: '\n' :: hiddenProg rest))))
        = some (st.value, some ')', ';' :: '\n' :: hiddenProg rest) := by
      show (wrapLazy (st.value ++
        (' ' :: '*' :: ' ' :: '1' :: ' ' :: '+' :: ' ' :: '0' :: ')' ::
          (';' :: '\n' :: hiddenProg rest)))).map (fun q => (q.1, some ')', q.2))
        = some (st.value, some ')', ';' :: '\n' :: hiddenProg rest)
      rw [hlazy]
      rfl
    rw [hshape, scanP_wrap_walk _ hpre prev _, scanP_match2 wrapMatcher_consumes hmw,
      scanP_skip (wrapMatcher_not_paren _ _ (by decide)),
      scanP_skip (wrapMatcher_not_paren _ _ (by decide)),
      ih (some '\n') (fun s hs => hOK s (by simp [hs])),
      renderProg_cons]
    simp [renderStmt]

/-- Claim C6, amended: the exact round trip fails on general inputs (the
removal pass also strips wrapper-shaped text the hiding pass never produced,
see the counterexample), but it holds on canonical declaration programs:
for every newline-terminated list of statements `kw NAME = VALUE;` with
`kw ∈ {let, const, var}`, `NAME` a `[a-zA-Z_$][\w$]*` identifier, and `VALUE`
nonempty, not containing `; ( ) * { } _` or line breaks, with no leading or
trailing whitespace and no underscore in `NAME`, applying the variable-value
wrapping pass and then the removal pass recovers the program byte for byte. -/
theorem claim6_variable_wrap_roundtrip (sts : List Stmt)
    (hOK : ∀ st ∈ sts, stmtOKb st = true) :
    removeObfuscation (applyVariableHiding (String.mk (renderProg sts)))
      = String.mk (renderProg sts) := by
  have htl : (String.mk (renderProg sts)).toList = renderProg sts := rfl
  have hhide : applyVariableHiding (String.mk (renderProg sts))
      = String.mk (hiddenProg sts) := by
    rw [applyVariableHiding, htl, runScanP, scanP_hide sts none hOK (by decide)]
  rw [hhide, removeObfuscation]
  have htl2 : (String.mk (hiddenProg sts)).toList = hiddenProg sts := rfl
  rw [htl2]
  have hj : runScanP junkMatcher (hiddenProg sts) = hiddenProg sts :=
    runScanP_id _ (fun p n => junkMatcher_no_underscore
      (fun hm => (hiddenProg_chars hOK (List.mem_of_mem_drop hm)).1 rfl))
  have hd1 : runScanP d1Matcher (hiddenProg sts) = hiddenProg sts :=
    runScanP_id _ (fun p n => d1Matcher_no_underscore
      (fun hm => (hiddenProg_chars hOK (List.mem_of_mem_drop hm)).1 rfl))
  have hd2 : runScanP d2Matcher (hiddenProg sts) = hiddenProg sts :=
    runScanP_id _ (fun p n => d2Matcher_no_underscore
      (fun hm => (hiddenProg_chars hOK (List.mem_of_mem_drop hm)).1 rfl))
  have hd3 : runScanP d3Matcher (hiddenProg sts) = hiddenProg sts :=
    runScanP_id _ (fun p n => d3Matcher_no_brace
      (fun hm => (hiddenProg_chars hOK (List.mem_of_mem_drop hm)).2 rfl))
  rw [hj, hd1, hd2, hd3, runScanP, scanP_unwrap sts none hOK]

theorem claim6_variable_wrap_roundtrip_witness :
    (∀ st ∈ [(⟨"let".toList, "x".toList, "3".toList⟩ : Stmt),
             ⟨"const".toList, ['y', '$', '2'], "a + b".toList⟩],
      stmtOKb st = true) ∧
    removeObfuscation (applyVariableHiding (String.mk (renderProg
        [(⟨"let".toList, "x".toList, "3".toList⟩ : Stmt),
         ⟨"const".toList, ['y', '$', '2'], "a + b".toList⟩])))
      = String.mk (renderProg
        [(⟨"let".toList, "x".toList, "3".toList⟩ : Stmt),
         ⟨"const".toList, ['y', '$', '2'], "a + b".toList⟩]) :=
  ⟨by decide, claim6_variable_wrap_roundtrip
    [(⟨"let".toList, "x".toList, "3".toList⟩ : Stmt),
     ⟨"const".toList, ['y', '$', '2'], "a + b".toList⟩] (by decide)⟩

example : (enigmaObfuscate "Hi" cfgDefault).isSome = true := by decide

example :
    ((enigmaObfuscate "Hi there!" cfgDefault).bind
      (fun t => enigmaObfuscate t cfgDefault)) = some "Hi there!" := by decide

end NeoEnigma
